/-
Verification of the LPS (longest palindromic substring) analyzer core.

Shallow embedding of the server's core functions (preprocessString,
validatePalindrome, naiveLPS, dpLPS, manacherLPS, measurePerformance and the
sequential comparison runner).  JavaScript strings are modelled as `List Char`,
array index maps as `List Nat`, and the harness's clock/allocator readings as
an explicit list of per-iteration observations.  Machine floats that only carry
measured quantities are modelled as rationals.
-/
import Mathlib

/-- The character class of the regexes `[a-zA-Z0-9]` / `[^a-zA-Z0-9]` used by
`preprocessString` and `validatePalindrome`: ASCII lower-case letters
(97-122), upper-case letters (65-90) and digits (48-57). -/
def isAlnumChar (c : Char) : Bool :=
  (97 ≤ c.toNat && c.toNat ≤ 122) || (65 ≤ c.toNat && c.toNat ≤ 90) ||
    (48 ≤ c.toNat && c.toNat ≤ 57)

/-- JavaScript `toLowerCase()` restricted to the characters it is ever applied
to here: it is always called after the `[^a-zA-Z0-9]` strip, so only ASCII
alphanumerics reach it, and on those it adds 32 to upper-case letters. -/
def jsToLower (c : Char) : Char :=
  if 65 ≤ c.toNat && c.toNat ≤ 90 then Char.ofNat (c.toNat + 32) else c

/-- `s.replace(/[^a-zA-Z0-9]/g, '').toLowerCase()`: drop every character that
is not an ASCII alphanumeric, then lower-case the survivors. -/
def canonicalize (s : List Char) : List Char :=
  (s.filter isAlnumChar).map jsToLower

/-- The index-mapping loop of `preprocessString`: the list of offsets (in
increasing order) of the alphanumeric characters of the raw string; entry `k`
is the raw offset of the `k`-th retained character. -/
def alnumIndices : List Char → List Nat
  | [] => []
  | c :: rest =>
      if isAlnumChar c then 0 :: (alnumIndices rest).map (· + 1)
      else (alnumIndices rest).map (· + 1)

/-- `preprocessString`: returns the processed (canonical) string together with
the processed-index → raw-index mapping.  The early returns of the source for
empty input produce the same pair, so no separate branch is needed. -/
def preprocessString (s : List Char) : List Char × List Nat :=
  (canonicalize s, alnumIndices s)

/-- `validatePalindrome`: `!str` is false for the empty string; otherwise the
argument is canonicalized again and the first half is compared against the
mirrored second half. -/
def validatePalindrome (str : List Char) : Bool :=
  if str.isEmpty then false
  else
    let processed := canonicalize str
    if processed.length ≤ 1 then true
    else
      (List.range (processed.length / 2)).all fun i =>
        processed.getD i (Char.ofNat 32) ==
          processed.getD (processed.length - 1 - i) (Char.ofNat 32)

/-- JavaScript `str.substring(a, b)` for natural-number arguments: both ends
are clamped to the string length and swapped when given in the wrong order. -/
def jsSubstring (l : List Char) (a b : Nat) : List Char :=
  (l.take (max a b)).drop (min a b)

/-- The spanSlice of `s` of length `len` starting at `a` (the span a `(start,
length)` pair denotes inside the processed string). -/
def spanSlice (s : List Char) (a len : Nat) : List Char :=
  (s.drop a).take len

/-- The span `[a, a+len)` of `s` reads the same forwards and backwards
(position `j` matches position `len-1-j`). -/
def palSlice (s : List Char) (a len : Nat) : Prop :=
  ∀ j, j < len →
    s.getD (a + j) (Char.ofNat 32) = s.getD (a + len - 1 - j) (Char.ofNat 32)

/-- The expand-around-center `while` loop shared (textually repeated) by all
three algorithms: while `left ≥ 0`, `right < n` and the end characters match,
record the span when it is strictly longer than the current best, then move
`left` one left and `right` one right.  `left = 0` is split off because the
JavaScript loop exits when `left` becomes `-1`. -/
def expandAroundCenter (s : List Char) : Nat → Nat → Nat → Nat → Nat × Nat
  | 0, r, bl, bs =>
      if r < s.length ∧ s.getD 0 (Char.ofNat 32) = s.getD r (Char.ofNat 32) then
        if bl < r + 1 then (r + 1, 0) else (bl, bs)
      else (bl, bs)
  | l + 1, r, bl, bs =>
      if r < s.length ∧
          s.getD (l + 1) (Char.ofNat 32) = s.getD r (Char.ofNat 32) then
        if bl < r - (l + 1) + 1 then
          expandAroundCenter s l (r + 1) (r - (l + 1) + 1) (l + 1)
        else expandAroundCenter s l (r + 1) bl bs
      else (bl, bs)

/-- One iteration of `naiveLPS`'s center loop: expand the odd-length center
`(i, i)` and then the even-length center `(i, i+1)`. -/
def naiveStep (s : List Char) (b : Nat × Nat) (i : Nat) : Nat × Nat :=
  let b1 := expandAroundCenter s i i b.1 b.2
  expandAroundCenter s i (i + 1) b1.1 b1.2

/-- `naiveLPS`'s center scan: all centers `0 ≤ i < n`, starting from
`maxLength = 0`, `maxStart = 0`. -/
def naiveCenters (s : List Char) : Nat × Nat :=
  (List.range s.length).foldl (naiveStep s) (0, 0)

/-- One iteration of `dpLPS`'s center loop: `expandAroundCenter(i, i)` always,
`expandAroundCenter(i, i+1)` only when `i + 1 < n`. -/
def dpStep (s : List Char) (b : Nat × Nat) (i : Nat) : Nat × Nat :=
  let b1 := expandAroundCenter s i i b.1 b.2
  if i + 1 < s.length then expandAroundCenter s i (i + 1) b1.1 b1.2 else b1

/-- `dpLPS`'s center scan, starting from `maxLength = 1`, `start = 0`. -/
def dpCenters (s : List Char) : Nat × Nat :=
  (List.range s.length).foldl (dpStep s) (1, 0)

/-- One iteration of `manacherLPS`'s odd-length pass: the expansion starts at
`left = i - 1`, `right = i + 1`, so at `i = 0` the loop body never runs. -/
def manacherOddStep (s : List Char) (b : Nat × Nat) (i : Nat) : Nat × Nat :=
  if i = 0 then b else expandAroundCenter s (i - 1) (i + 1) b.1 b.2

/-- One iteration of `manacherLPS`'s even-length pass: expand `(i, i+1)` only
when the two adjacent characters already match. -/
def manacherEvenStep (s : List Char) (b : Nat × Nat) (i : Nat) : Nat × Nat :=
  if s.getD i (Char.ofNat 32) = s.getD (i + 1) (Char.ofNat 32) then
    expandAroundCenter s i (i + 1) b.1 b.2
  else b

/-- `manacherLPS`'s two passes: odd centers `0 ≤ i < n` then even centers
`0 ≤ i < n - 1`, starting from `maxLength = 1`, `maxStart = 0`. -/
def manacherCenters (s : List Char) : Nat × Nat :=
  (List.range (s.length - 1)).foldl (manacherEvenStep s)
    ((List.range s.length).foldl (manacherOddStep s) (1, 0))

/-- The best span `naiveLPS` submits to validation: the scanned best, patched
to `(1, 0)` by the `maxLength === 0 && n > 0` special case. -/
def naiveSpan (s : List Char) : Nat × Nat :=
  let b := naiveCenters s
  if b.1 = 0 then (1, 0) else b

/-- Mapping a processed-string span back to the raw string:
`originalStr.substring(indexMapping[start], indexMapping[start+len-1] + 1)`. -/
def mapSpanBack (originalStr : List Char) (indexMapping : List Nat)
    (start len : Nat) : List Char :=
  jsSubstring originalStr (indexMapping.getD start 0)
    (indexMapping.getD (start + len - 1) 0 + 1)

/-- The single-character fallback `originalStr.substring(indexMapping[0],
indexMapping[0] + 1)` used by the validation-failure branches and the
one-character early returns. -/
def firstCharFallback (originalStr : List Char) (indexMapping : List Nat) :
    List Char :=
  jsSubstring originalStr (indexMapping.getD 0 0) (indexMapping.getD 0 0 + 1)

/-- `naiveLPS`. -/
def naiveLPS (processedStr : List Char) (indexMapping : List Nat)
    (originalStr : List Char) : List Char :=
  let b := naiveCenters processedStr
  if b.1 = 0 ∧ processedStr.length = 0 then []
  else
    let sp := naiveSpan processedStr
    if validatePalindrome (spanSlice processedStr sp.2 sp.1) then
      mapSpanBack originalStr indexMapping sp.2 sp.1
    else if 0 < processedStr.length then
      firstCharFallback originalStr indexMapping
    else []

/-- `dpLPS`. -/
def dpLPS (processedStr : List Char) (indexMapping : List Nat)
    (originalStr : List Char) : List Char :=
  if processedStr.length = 0 then []
  else if processedStr.length = 1 then
    firstCharFallback originalStr indexMapping
  else
    let b := dpCenters processedStr
    if validatePalindrome (spanSlice processedStr b.2 b.1) then
      mapSpanBack originalStr indexMapping b.2 b.1
    else firstCharFallback originalStr indexMapping

/-- `manacherLPS`. -/
def manacherLPS (processedStr : List Char) (indexMapping : List Nat)
    (originalStr : List Char) : List Char :=
  if processedStr.isEmpty then []
  else if processedStr.length = 1 then
    firstCharFallback originalStr indexMapping
  else
    let b := manacherCenters processedStr
    if validatePalindrome (spanSlice processedStr b.2 b.1) then
      mapSpanBack originalStr indexMapping b.2 b.1
    else firstCharFallback originalStr indexMapping

/-- The route handler's call pattern for `naiveLPS`: preprocess the raw input
once and pass the raw input as `originalStr`. -/
def runNaive (s : List Char) : List Char :=
  naiveLPS (preprocessString s).1 (preprocessString s).2 s

/-- The route handler's call pattern for `dpLPS`. -/
def runDp (s : List Char) : List Char :=
  dpLPS (preprocessString s).1 (preprocessString s).2 s

/-- The route handler's call pattern for `manacherLPS`. -/
def runManacher (s : List Char) : List Char :=
  manacherLPS (preprocessString s).1 (preprocessString s).2 s

/-- `MAX_EXECUTION_TIME = 120000` milliseconds. -/
def MAX_EXECUTION_TIME : ℚ := 120000

/-- The string returned as `result` on the timeout path:
`Result found but took longer than ${MAX_EXECUTION_TIME/1000} seconds`. -/
def timeoutMessage : List Char :=
  ("Result found but took longer than 120 seconds").toList

/-- The environment readings one timed iteration of `measurePerformance`
consumes: `performance.now()` before and after the run,
`process.memoryUsage().heapUsed` before and after, and whether the
`setTimeout` timeout callback has fired by the end of the iteration. -/
structure IterObs where
  startTime : ℚ
  endTime : ℚ
  baselineMemory : ℚ
  finalMemory : ℚ
  timedOutFlag : Bool
deriving DecidableEq

/-- The object `measurePerformance` returns.  Fields the source leaves
`undefined` on some paths are defaulted to `false`/`0`/`[]`, which is how the
route handler reads them (`result.timedOut || false`, …). -/
structure MeasureResult where
  result : List Char
  executionTime : ℚ
  memoryUsage : ℚ
  timedOut : Bool
  memoryMeasurementIssue : Bool
  iterations : Nat
  allTimes : List ℚ
deriving DecidableEq

/-- `measurePerformance` together with the trace of algorithm invocations it
performs: the two warmup calls and one call per timed iteration. -/
structure MeasureTrace where
  warmupResults : List (List Char)
  iterationResults : List (List Char)
  res : MeasureResult
deriving DecidableEq

/-- The iteration-count tiers keyed on the processed (canonical) length. -/
def iterationsForLength (n : Nat) : Nat :=
  if n < 1000 then 7 else if n < 5000 then 5 else if n < 20000 then 3 else 1

/-- The measurement loop's early exit: iterations run in order and the loop
body ends with `if (timedOut) break`, so the iteration during which the
timeout fired is the last one whose samples are recorded. -/
def collectSamples : List IterObs → List IterObs
  | [] => []
  | o :: rest => if o.timedOutFlag then [o] else o :: collectSamples rest

/-- One memory sample:
`Math.max(0, (finalMemory - baselineMemory) / 1024)` (KB). -/
def memSampleKB (baseline final : ℚ) : ℚ :=
  if (final - baseline) / 1024 < 0 then 0 else (final - baseline) / 1024

/-- Insert into an ascending list (helper for `sortAsc`). -/
def insertAsc (x : ℚ) : List ℚ → List ℚ
  | [] => [x]
  | y :: ys => if x ≤ y then x :: y :: ys else y :: insertAsc x ys

/-- `array.sort((a, b) => a - b)`: ascending numeric sort.  Insertion sort
produces the same list as any other correct sort of rational values. -/
def sortAsc (l : List ℚ) : List ℚ := l.foldr insertAsc []

/-- The outlier trim: when at least 5 samples were collected,
`slice(cutoff, length - cutoff)` with `cutoff = Math.floor(length * 0.2)`.
For every reachable sample count (at most 7) the double-precision
`Math.floor(length * 0.2)` equals `length / 5` in natural division. -/
def trimOutliers (l : List ℚ) : List ℚ :=
  if 5 ≤ l.length then (l.take (l.length - l.length / 5)).drop (l.length / 5)
  else l

/-- `array.reduce((sum, x) => sum + x, 0)`. -/
def listSum (l : List ℚ) : ℚ := l.foldl (· + ·) 0

/-- The aggregation `reduce(...) / array.length`. -/
def average (l : List ℚ) : ℚ := listSum l / l.length

/-- `parseFloat(x.toFixed(2))`: round to two decimal places (exact within the
rational model; the measured values are nonnegative). -/
def toFixed2 (q : ℚ) : ℚ := (Rat.floor (q * 100 + 1 / 2) : ℚ) / 100

/-- `measurePerformance`: the empty-input early return, 2 untimed warmup
invocations, `iterations` timed iterations (cut short when the timeout fires),
the timeout return path, and otherwise the sort / outlier-trim / average
aggregation of both series.  The clock and allocator readings of the timed
iterations are supplied by `obs`. -/
def measurePerformance (algorithmFn : List Char → List Nat → List Char → List Char)
    (processedStr : List Char) (indexMapping : List Nat)
    (originalStr : List Char) (obs : List IterObs) : MeasureTrace :=
  if processedStr.isEmpty then
    ⟨[], [], ⟨[], 0, 0, false, false, 0, []⟩⟩
  else
    let iterations := iterationsForLength processedStr.length
    let warmupResults := [algorithmFn processedStr indexMapping originalStr,
                          algorithmFn processedStr indexMapping originalStr]
    let processed := collectSamples (obs.take iterations)
    let iterationResults :=
      processed.map (fun _ => algorithmFn processedStr indexMapping originalStr)
    let firstResult := iterationResults.headD []
    let executionTimes := processed.map (fun o => o.endTime - o.startTime)
    let memoryUsages :=
      processed.map (fun o => memSampleKB o.baselineMemory o.finalMemory)
    let timedOut := processed.any (fun o => o.timedOutFlag)
    if timedOut then
      ⟨warmupResults, iterationResults,
       ⟨timeoutMessage, MAX_EXECUTION_TIME, 0, true, false, 0, []⟩⟩
    else
      let trimmedTimes := trimOutliers (sortAsc executionTimes)
      let trimmedMems := trimOutliers (sortAsc memoryUsages)
      let avgExecutionTime := average trimmedTimes
      let avgMemoryUsage := average trimmedMems
      ⟨warmupResults, iterationResults,
       ⟨firstResult, toFixed2 avgExecutionTime, toFixed2 avgMemoryUsage, false,
        decide (avgMemoryUsage ≤ 0), trimmedTimes.length, trimmedTimes⟩⟩

/-- The per-algorithm outcomes of one `/runAlgorithms` comparison. -/
structure ComparisonResults where
  naive : MeasureResult
  dp : MeasureResult
  manacher : MeasureResult
deriving DecidableEq

/-- The route handler's sequential measurement of the three algorithms: the
input is preprocessed once and each algorithm is measured in isolation on its
own copy of the data with its own environment readings.  The execution order
(Manacher first, the other two shuffled) only permutes which algorithm runs
when; each algorithm's outcome is a function of its own readings alone. -/
def runComparison (originalStr : List Char)
    (obsNaive obsDp obsManacher : List IterObs) : ComparisonResults :=
  let pr := preprocessString originalStr
  ⟨(measurePerformance naiveLPS pr.1 pr.2 originalStr obsNaive).res,
   (measurePerformance dpLPS pr.1 pr.2 originalStr obsDp).res,
   (measurePerformance manacherLPS pr.1 pr.2 originalStr obsManacher).res⟩

/-- Modelled from the spec: "a raw character is retained in `canonical` iff it
is an ASCII/Unicode alphanumeric character" (§4.1).  ASCII alphanumerics
together with the Latin-1 Supplement letters (U+00C0-U+00FF minus the
multiplication sign U+00D7 and division sign U+00F7), the Unicode letters
nearest beyond ASCII.  Used only to state the retention rule the spec's words
describe, for comparison with the source's `isAlnumChar`. -/
def specAlphanumeric (c : Char) : Bool :=
  isAlnumChar c ||
    (192 ≤ c.toNat && c.toNat ≤ 255 && c.toNat != 215 && c.toNat != 247)

instance palSliceDecidable (s : List Char) (a len : Nat) :
    Decidable (palSlice s a len) := by
  unfold palSlice
  infer_instance

/-- A run of seven iteration observations whose very first iteration sees the
timeout flag already set (the timer fired during iteration 0). -/
def obsTimeout : List IterObs := List.replicate 7 ⟨0, 1, 0, 0, true⟩

/-- A quiet two-iteration observation list: no timeout, one run of 3 ms that
allocated 2 KB and one run of 1 ms that freed memory on balance. -/
def obsSample : List IterObs := [⟨0, 3, 0, 2048, false⟩, ⟨1, 2, 2048, 1024, false⟩]

/-! ### Basic list access lemmas -/

theorem getD_eq_getElem' {α : Type} : ∀ (l : List α) (i : Nat) (d : α)
    (h : i < l.length), l.getD i d = l[i]
  | x :: xs, 0, d, _ => rfl
  | x :: xs, i + 1, d, h => by
      simpa using getD_eq_getElem' xs i d (by simpa using h)

theorem getD_map_add_one : ∀ (l : List Nat) (k : Nat), k < l.length →
    (l.map (· + 1)).getD k 0 = l.getD k 0 + 1
  | x :: xs, 0, _ => rfl
  | x :: xs, k + 1, h => by
      simpa using getD_map_add_one xs k (by simpa using h)

theorem getD_take {α : Type} : ∀ (l : List α) (n j : Nat) (d : α), j < n →
    (l.take n).getD j d = l.getD j d
  | [], _, _, _, _ => by simp
  | x :: xs, n + 1, 0, d, _ => rfl
  | x :: xs, n + 1, j + 1, d, h => by
      simpa using getD_take xs n j d (by omega)

theorem getD_drop {α : Type} : ∀ (l : List α) (a j : Nat) (d : α),
    (l.drop a).getD j d = l.getD (a + j) d
  | _, 0, _, _ => by simp
  | [], a + 1, j, d => by simp
  | x :: xs, a + 1, j, d => by
      have := getD_drop xs a j d
      simpa [Nat.succ_add] using this

theorem getD_replicate {α : Type} : ∀ (n j : Nat) (c d : α), j < n →
    (List.replicate n c).getD j d = c
  | n + 1, 0, c, d, _ => rfl
  | n + 1, j + 1, c, d, h => by
      rw [List.replicate_succ, List.getD_cons_succ]
      exact getD_replicate n j c d (by omega)

theorem spanSlice_getD (s : List Char) (a len j : Nat) (d : Char)
    (hj : j < len) :
    (spanSlice s a len).getD j d = s.getD (a + j) d := by
  rw [spanSlice, getD_take _ _ _ _ hj, getD_drop]

theorem spanSlice_length (s : List Char) (a len : Nat)
    (h : a + len ≤ s.length) : (spanSlice s a len).length = len := by
  simp [spanSlice]
  omega

/-! ### Preprocessing lemmas -/

theorem alnumIndices_length : ∀ s : List Char,
    (alnumIndices s).length = (canonicalize s).length := by
  intro s
  induction s with
  | nil => rfl
  | cons c rest ih =>
      by_cases h : isAlnumChar c = true <;>
        simp [alnumIndices, canonicalize, h] at ih ⊢ <;>
        simpa [canonicalize] using ih

theorem alnumIndices_pairwise : ∀ s : List Char,
    (alnumIndices s).Pairwise (· < ·) := by
  intro s
  induction s with
  | nil => exact List.Pairwise.nil
  | cons c rest ih =>
      have hmap : ((alnumIndices rest).map (· + 1)).Pairwise (· < ·) :=
        List.Pairwise.map _ (fun a b h => by omega) ih
      by_cases h : isAlnumChar c = true
      · simp only [alnumIndices, h, if_pos]
        refine List.Pairwise.cons ?_ hmap
        intro x hx
        rcases List.mem_map.mp hx with ⟨y, _, rfl⟩
        omega
      · simpa [alnumIndices, h] using hmap

theorem alnumIndices_spec : ∀ (s : List Char) (k : Nat),
    k < (alnumIndices s).length →
    (alnumIndices s).getD k 0 < s.length ∧
      isAlnumChar (s.getD ((alnumIndices s).getD k 0) (Char.ofNat 32)) = true ∧
      (canonicalize s).getD k (Char.ofNat 32) =
        jsToLower (s.getD ((alnumIndices s).getD k 0) (Char.ofNat 32)) := by
  intro s
  induction s with
  | nil => intro k hk; simp [alnumIndices] at hk
  | cons c rest ih =>
      intro k hk
      by_cases h : isAlnumChar c = true
      · match k with
        | 0 => simpa [alnumIndices, canonicalize, h] using h
        | k + 1 =>
            simp only [alnumIndices, h, if_pos, List.length_cons,
              List.getD_cons_succ] at hk ⊢
            have hk' : k < (alnumIndices rest).length := by
              simpa using hk
            rw [getD_map_add_one _ _ hk']
            have := ih k hk'
            simpa [canonicalize, h] using this
      · simp only [alnumIndices, h, if_neg, Bool.false_eq_true,
          not_false_iff, List.length_map] at hk ⊢
        rw [getD_map_add_one _ _ hk]
        have := ih k (by simpa using hk)
        simpa [canonicalize, h] using this

theorem alnumIndices_mem_iff : ∀ (s : List Char) (i : Nat), i < s.length →
    (i ∈ alnumIndices s ↔ isAlnumChar (s.getD i (Char.ofNat 32)) = true) := by
  intro s
  induction s with
  | nil => intro i hi; simp at hi
  | cons c rest ih =>
      intro i hi
      match i with
      | 0 =>
          have hD : (c :: rest).getD 0 (Char.ofNat 32) = c := rfl
          rw [hD]
          by_cases h : isAlnumChar c = true
          · simp [alnumIndices, h]
          · simp only [alnumIndices, if_neg h]
            constructor
            · intro hmem
              rcases List.mem_map.mp hmem with ⟨x, _, hx⟩
              omega
            · intro hc
              exact absurd hc h
      | i + 1 =>
          have hi' : i < rest.length := by simpa using hi
          have hD : (c :: rest).getD (i + 1) (Char.ofNat 32) =
              rest.getD i (Char.ofNat 32) := rfl
          rw [hD]
          have base : i + 1 ∈ (alnumIndices rest).map (· + 1) ↔
              i ∈ alnumIndices rest := by
            constructor
            · intro hmem
              rcases List.mem_map.mp hmem with ⟨x, hx, hx1⟩
              have hxi : x = i := by omega
              subst hxi
              exact hx
            · intro hmem
              exact List.mem_map.mpr ⟨i, hmem, rfl⟩
          by_cases h : isAlnumChar c = true
          · simp only [alnumIndices, if_pos h, List.mem_cons]
            constructor
            · intro hcase
              rcases hcase with h0 | hmem
              · omega
              · exact (ih i hi').mp (base.mp hmem)
            · intro hmem
              exact Or.inr (base.mpr ((ih i hi').mpr hmem))
          · simp only [alnumIndices, if_neg h]
            rw [base]
            exact ih i hi'

theorem alnumIndices_getD_mono (s : List Char) (a b : Nat) (hab : a ≤ b)
    (hb : b < (alnumIndices s).length) :
    (alnumIndices s).getD a 0 ≤ (alnumIndices s).getD b 0 := by
  rcases Nat.eq_or_lt_of_le hab with rfl | hlt
  · exact le_refl _
  · have ha : a < (alnumIndices s).length := by omega
    have hpw := (List.pairwise_iff_getElem.mp (alnumIndices_pairwise s))
      a b ha hb hlt
    rw [getD_eq_getElem' _ _ _ ha, getD_eq_getElem' _ _ _ hb]
    omega

theorem canonicalize_take : ∀ (s : List Char) (k : Nat),
    k < (canonicalize s).length →
    canonicalize (s.take ((alnumIndices s).getD k 0 + 1)) =
      (canonicalize s).take (k + 1) := by
  intro s
  induction s with
  | nil => intro k hk; simp [canonicalize] at hk
  | cons c rest ih =>
      intro k hk
      by_cases h : isAlnumChar c = true
      · match k with
        | 0 =>
            simp [alnumIndices, h, canonicalize]
        | k + 1 =>
            have hk' : k < (canonicalize rest).length := by
              simpa [canonicalize, h] using hk
            have hkI : k < (alnumIndices rest).length := by
              rw [alnumIndices_length]; exact hk'
            simp only [alnumIndices, if_pos h, List.getD_cons_succ]
            rw [getD_map_add_one _ _ hkI]
            rw [List.take_succ_cons]
            have hcanon : canonicalize (c :: rest.take ((alnumIndices rest).getD k 0 + 1)) =
                jsToLower c :: canonicalize (rest.take ((alnumIndices rest).getD k 0 + 1)) := by
              simp [canonicalize, h]
            rw [hcanon, ih k hk']
            simp [canonicalize, h]
      · have hk' : k < (canonicalize rest).length := by
          simpa [canonicalize, h] using hk
        have hkI : k < (alnumIndices rest).length := by
          rw [alnumIndices_length]; exact hk'
        simp only [alnumIndices, if_neg h]
        rw [getD_map_add_one _ _ hkI]
        rw [List.take_succ_cons]
        have hcanon : canonicalize (c :: rest.take ((alnumIndices rest).getD k 0 + 1)) =
            canonicalize (rest.take ((alnumIndices rest).getD k 0 + 1)) := by
          simp [canonicalize, h]
        rw [hcanon, ih k hk']
        have : canonicalize (c :: rest) = canonicalize rest := by
          simp [canonicalize, h]
        rw [this]

theorem canonicalize_substring : ∀ (s : List Char) (a b : Nat), a ≤ b →
    b < (canonicalize s).length →
    canonicalize ((s.take ((alnumIndices s).getD b 0 + 1)).drop
        ((alnumIndices s).getD a 0)) =
      ((canonicalize s).take (b + 1)).drop a := by
  intro s
  induction s with
  | nil => intro a b _ hb; simp [canonicalize] at hb
  | cons c rest ih =>
      intro a b hab hb
      by_cases h : isAlnumChar c = true
      · match a, b with
        | 0, b =>
            have h0 : (alnumIndices (c :: rest)).getD 0 0 = 0 := by
              simp [alnumIndices, h]
            rw [h0, List.drop_zero]
            exact canonicalize_take (c :: rest) b hb
        | a + 1, b + 1 =>
            have hb' : b < (canonicalize rest).length := by
              simpa [canonicalize, h] using hb
            have hbI : b < (alnumIndices rest).length := by
              rw [alnumIndices_length]; exact hb'
            have haI : a < (alnumIndices rest).length := by omega
            simp only [alnumIndices, if_pos h, List.getD_cons_succ]
            rw [getD_map_add_one _ _ hbI, getD_map_add_one _ _ haI]
            rw [List.take_succ_cons, List.drop_succ_cons]
            rw [ih a b (by omega) hb']
            have : canonicalize (c :: rest) = jsToLower c :: canonicalize rest := by
              simp [canonicalize, h]
            rw [this, List.take_succ_cons, List.drop_succ_cons]
      · have hb' : b < (canonicalize rest).length := by
          simpa [canonicalize, h] using hb
        have hbI : b < (alnumIndices rest).length := by
          rw [alnumIndices_length]; exact hb'
        have haI : a < (alnumIndices rest).length := by omega
        simp only [alnumIndices, if_neg h]
        rw [getD_map_add_one _ _ hbI, getD_map_add_one _ _ haI]
        rw [List.take_succ_cons, List.drop_succ_cons]
        rw [ih a b hab hb']
        have : canonicalize (c :: rest) = canonicalize rest := by
          simp [canonicalize, h]
        rw [this]

theorem jsSubstring_of_le (l : List Char) (a b : Nat) (hab : a ≤ b) :
    jsSubstring l a b = (l.take b).drop a := by
  simp [jsSubstring, Nat.max_eq_right hab, Nat.min_eq_left hab]

theorem canonicalize_mapSpanBack (s : List Char) (a len : Nat) (hlen : 1 ≤ len)
    (hb : a + len ≤ (canonicalize s).length) :
    canonicalize (mapSpanBack s (alnumIndices s) a len) =
      spanSlice (canonicalize s) a len := by
  have hblt : a + len - 1 < (canonicalize s).length := by omega
  have hbI : a + len - 1 < (alnumIndices s).length := by
    rw [alnumIndices_length]; exact hblt
  have hmono : (alnumIndices s).getD a 0 ≤
      (alnumIndices s).getD (a + len - 1) 0 :=
    alnumIndices_getD_mono s a (a + len - 1) (by omega) hbI
  rw [mapSpanBack, jsSubstring_of_le _ _ _ (by omega)]
  rw [canonicalize_substring s a (a + len - 1) (by omega) hblt]
  rw [spanSlice, List.drop_take]
  congr 1
  omega

/-! ### Palindrome lemmas -/

theorem palSlice_zero (s : List Char) (a : Nat) : palSlice s a 0 := by
  intro j hj
  omega

theorem palSlice_one (s : List Char) (a : Nat) : palSlice s a 1 := by
  intro j hj
  have hj0 : j = 0 := by omega
  subst hj0
  rfl

theorem palSlice_extend (s : List Char) (l r : Nat) (hlr : l ≤ r)
    (hc : s.getD l (Char.ofNat 32) = s.getD r (Char.ofNat 32))
    (hcore : palSlice s (l + 1) (r - l - 1)) : palSlice s l (r - l + 1) := by
  intro j hj
  have hidx : l + (r - l + 1) - 1 - j = r - j := by omega
  rw [hidx]
  rcases Nat.eq_zero_or_pos j with rfl | hj0
  · simpa using hc
  · rcases Nat.lt_or_ge j (r - l) with hjlt | hjge
    · have := hcore (j - 1) (by omega)
      have h1 : l + 1 + (j - 1) = l + j := by omega
      have h2 : l + 1 + (r - l - 1) - 1 - (j - 1) = r - j := by omega
      rwa [h1, h2] at this
    · have hjeq : j = r - l := by omega
      subst hjeq
      have h1 : l + (r - l) = r := by omega
      have h2 : r - (r - l) = l := by omega
      rw [h1, h2]
      exact hc.symm

theorem list_reverse_of_pointwise (t : List Char)
    (h : ∀ j, j < t.length →
      t.getD j (Char.ofNat 32) = t.getD (t.length - 1 - j) (Char.ofNat 32)) :
    t.reverse = t := by
  apply List.ext_getElem (by simp)
  intro i h1 h2
  have hi : i < t.length := h2
  have hrev : t.length - 1 - i < t.length := by omega
  have hpt := h (t.length - 1 - i) hrev
  have hsym : t.length - 1 - (t.length - 1 - i) = i := by omega
  rw [hsym] at hpt
  rw [getD_eq_getElem' _ _ _ hrev, getD_eq_getElem' _ _ _ hi] at hpt
  rw [List.getElem_reverse]
  exact hpt

theorem getD_reverse (t : List Char) (j : Nat) (d : Char)
    (hj : j < t.length) :
    t.reverse.getD j d = t.getD (t.length - 1 - j) d := by
  have hj' : j < t.reverse.length := by simpa using hj
  have hrev : t.length - 1 - j < t.length := by omega
  rw [getD_eq_getElem' _ _ _ hj', getD_eq_getElem' _ _ _ hrev]
  exact List.getElem_reverse hj'

theorem pointwise_of_list_reverse (t : List Char) (h : t.reverse = t) :
    ∀ j, j < t.length →
      t.getD j (Char.ofNat 32) = t.getD (t.length - 1 - j) (Char.ofNat 32) := by
  intro j hj
  have := getD_reverse t j (Char.ofNat 32) hj
  rw [h] at this
  exact this

theorem canonicalize_reverse (t : List Char) :
    canonicalize t.reverse = (canonicalize t).reverse := by
  simp [canonicalize, List.filter_reverse, List.map_reverse]

theorem palSlice_spanSlice_reverse (p : List Char) (a len : Nat)
    (h2 : a + len ≤ p.length) (hp : palSlice p a len) :
    (spanSlice p a len).reverse = spanSlice p a len := by
  apply list_reverse_of_pointwise
  intro j hj
  have hlen : (spanSlice p a len).length = len := spanSlice_length p a len h2
  rw [hlen] at hj ⊢
  rw [spanSlice_getD _ _ _ _ _ hj, spanSlice_getD _ _ _ _ _ (by omega)]
  have := hp j hj
  have hidx : a + (len - 1 - j) = a + len - 1 - j := by omega
  rw [hidx]
  exact this

theorem validatePalindrome_of_palSlice (p : List Char) (a len : Nat)
    (h1 : 1 ≤ len) (h2 : a + len ≤ p.length) (hp : palSlice p a len) :
    validatePalindrome (spanSlice p a len) = true := by
  have hlen : (spanSlice p a len).length = len := spanSlice_length p a len h2
  have hne : (spanSlice p a len).isEmpty = false := by
    rcases hsp : spanSlice p a len with _ | ⟨x, xs⟩
    · rw [hsp] at hlen
      simp at hlen
      omega
    · rfl
  rw [validatePalindrome, hne]
  simp only [Bool.false_eq_true, if_false]
  set processed := canonicalize (spanSlice p a len) with hproc
  by_cases hsmall : processed.length ≤ 1
  · simp [hsmall]
  · simp only [hsmall, if_neg, Bool.false_eq_true, not_false_iff]
    have hrev : processed.reverse = processed := by
      rw [hproc, ← canonicalize_reverse,
        palSlice_spanSlice_reverse p a len h2 hp]
    have hpt := pointwise_of_list_reverse processed hrev
    rw [List.all_eq_true]
    intro i hi
    rw [List.mem_range] at hi
    have := hpt i (by omega)
    simpa using this

/-! ### Expand-around-center lemmas -/

theorem expandAroundCenter_mono (s : List Char) : ∀ (l r bl bs : Nat),
    bl ≤ (expandAroundCenter s l r bl bs).1 := by
  intro l
  induction l with
  | zero =>
      intro r bl bs
      rw [expandAroundCenter]
      split
      · split <;> simp <;> omega
      · simp
  | succ l ih =>
      intro r bl bs
      rw [expandAroundCenter]
      split
      · split
        · calc bl ≤ r - (l + 1) + 1 := by omega
            _ ≤ _ := ih (r + 1) (r - (l + 1) + 1) (l + 1)
        · exact ih (r + 1) bl bs
      · simp

theorem expandAroundCenter_tie (s : List Char) : ∀ (l r bl bs : Nat),
    (expandAroundCenter s l r bl bs).1 = bl →
    expandAroundCenter s l r bl bs = (bl, bs) := by
  intro l
  induction l with
  | zero =>
      intro r bl bs heq
      rw [expandAroundCenter] at heq ⊢
      split at heq
      · split at heq
        · simp at heq
          omega
        · simp_all
      · simp_all
  | succ l ih =>
      intro r bl bs heq
      rw [expandAroundCenter] at heq ⊢
      by_cases hg : r < s.length ∧
          s.getD (l + 1) (Char.ofNat 32) = s.getD r (Char.ofNat 32)
      · rw [if_pos hg] at heq ⊢
        by_cases hlt : bl < r - (l + 1) + 1
        · rw [if_pos hlt] at heq ⊢
          exfalso
          have := expandAroundCenter_mono s l (r + 1) (r - (l + 1) + 1) (l + 1)
          omega
        · rw [if_neg hlt] at heq ⊢
          exact ih (r + 1) bl bs heq
      · rw [if_neg hg]

/-- A best-span candidate is `good` when it is either the untouched `(0, _)`
initial value or an in-bounds palindromic span. -/
def goodSpan (s : List Char) (b : Nat × Nat) : Prop :=
  b.1 = 0 ∨ (b.2 + b.1 ≤ s.length ∧ palSlice s b.2 b.1)

theorem expandAroundCenter_good (s : List Char) : ∀ (l r bl bs : Nat),
    l ≤ r → palSlice s (l + 1) (r - l - 1) → goodSpan s (bl, bs) →
    goodSpan s (expandAroundCenter s l r bl bs) := by
  intro l
  induction l with
  | zero =>
      intro r bl bs hlr hcore hgood
      rw [expandAroundCenter]
      split
      · rename_i hguard
        have hnew : palSlice s 0 (r + 1) := by
          have := palSlice_extend s 0 r (by omega) hguard.2 (by simpa using hcore)
          simpa using this
        split
        · exact Or.inr ⟨by omega, hnew⟩
        · exact hgood
      · exact hgood
  | succ l ih =>
      intro r bl bs hlr hcore hgood
      rw [expandAroundCenter]
      split
      · rename_i hguard
        have hnew : palSlice s (l + 1) (r - (l + 1) + 1) := by
          have := palSlice_extend s (l + 1) r hlr hguard.2
            (by simpa using hcore)
          simpa using this
        have hcore' : palSlice s (l + 1) ((r + 1) - l - 1) := by
          have hidx : (r + 1) - l - 1 = r - (l + 1) + 1 := by omega
          rw [hidx]
          exact hnew
        split
        · exact ih (r + 1) (r - (l + 1) + 1) (l + 1) (by omega) hcore'
            (Or.inr ⟨by omega, hnew⟩)
        · exact ih (r + 1) bl bs (by omega) hcore' hgood
      · exact hgood

theorem expandAroundCenter_guard_lb (s : List Char) (l r bl bs : Nat)
    (hr : r < s.length)
    (hc : s.getD l (Char.ofNat 32) = s.getD r (Char.ofNat 32)) :
    r - l + 1 ≤ (expandAroundCenter s l r bl bs).1 := by
  match l with
  | 0 =>
      rw [expandAroundCenter]
      rw [if_pos ⟨hr, hc⟩]
      split <;> simp <;> omega
  | l + 1 =>
      rw [expandAroundCenter]
      rw [if_pos ⟨hr, hc⟩]
      split
      · calc r - (l + 1) + 1
            ≤ (expandAroundCenter s l (r + 1) (r - (l + 1) + 1) (l + 1)).1 :=
              expandAroundCenter_mono s l (r + 1) (r - (l + 1) + 1) (l + 1)
          _ = _ := rfl
      · rename_i hnlt
        calc r - (l + 1) + 1 ≤ bl := by omega
          _ ≤ _ := expandAroundCenter_mono s l (r + 1) bl bs

theorem expandAroundCenter_complete (s : List Char) : ∀ (k l r bl bs : Nat),
    l ≤ r →
    (∀ j, j ≤ k → j ≤ l ∧ r + j < s.length ∧
      s.getD (l - j) (Char.ofNat 32) = s.getD (r + j) (Char.ofNat 32)) →
    (r + k) + 1 - (l - k) ≤ (expandAroundCenter s l r bl bs).1 := by
  intro k
  induction k with
  | zero =>
      intro l r bl bs hlr hmatch
      have h0 := hmatch 0 (le_refl 0)
      have := expandAroundCenter_guard_lb s l r bl bs (by simpa using h0.2.1)
        (by simpa using h0.2.2)
      omega
  | succ k ih =>
      intro l r bl bs hlr hmatch
      have hk1 := hmatch (k + 1) (le_refl _)
      have hl1 : 1 ≤ l := by omega
      have h0 := hmatch 0 (by omega)
      match l, hl1 with
      | l + 1, _ =>
          rw [expandAroundCenter]
          rw [if_pos ⟨by simpa using h0.2.1, by simpa using h0.2.2⟩]
          have hmatch' : ∀ j, j ≤ k → j ≤ l ∧ (r + 1) + j < s.length ∧
              s.getD (l - j) (Char.ofNat 32) =
                s.getD ((r + 1) + j) (Char.ofNat 32) := by
            intro j hj
            have := hmatch (j + 1) (by omega)
            refine ⟨by omega, by omega, ?_⟩
            have h1 : l + 1 - (j + 1) = l - j := by omega
            have h2 : r + (j + 1) = r + 1 + j := by omega
            rw [h1, h2] at this
            exact this.2.2
          have htgt : (r + 1 + k) + 1 - (l - k) = (r + (k + 1)) + 1 - (l + 1 - (k + 1)) := by
            omega
          split
          · have := ih l (r + 1) (r - (l + 1) + 1) (l + 1) (by omega) hmatch'
            omega
          · have := ih l (r + 1) bl bs (by omega) hmatch'
            omega

/-! ### Fold lemmas over the center scans -/

theorem foldl_best_mono {f : Nat × Nat → Nat → Nat × Nat}
    (hf : ∀ b i, b.1 ≤ (f b i).1) :
    ∀ (l : List Nat) (b : Nat × Nat), b.1 ≤ (l.foldl f b).1 := by
  intro l
  induction l with
  | nil => intro b; exact le_refl _
  | cons x xs ih =>
      intro b
      calc b.1 ≤ (f b x).1 := hf b x
        _ ≤ _ := ih (f b x)

theorem foldl_best_reach {f : Nat × Nat → Nat → Nat × Nat}
    (hf : ∀ b i, b.1 ≤ (f b i).1) {i t : Nat}
    (hi : ∀ b, t ≤ (f b i).1) :
    ∀ (l : List Nat) (b : Nat × Nat), i ∈ l → t ≤ (l.foldl f b).1 := by
  intro l
  induction l with
  | nil => intro b hmem; simp at hmem
  | cons x xs ih =>
      intro b hmem
      rcases List.mem_cons.mp hmem with rfl | hmem'
      · calc t ≤ (f b i).1 := hi b
          _ ≤ _ := foldl_best_mono hf xs (f b i)
      · exact ih (f b x) hmem'

theorem foldl_best_good {s : List Char} {f : Nat × Nat → Nat → Nat × Nat}
    (hf : ∀ b i, goodSpan s b → goodSpan s (f b i)) :
    ∀ (l : List Nat) (b : Nat × Nat), goodSpan s b → goodSpan s (l.foldl f b) := by
  intro l
  induction l with
  | nil => intro b hb; exact hb
  | cons x xs ih => intro b hb; exact ih (f b x) (hf b x hb)

/-! ### Per-step facts -/

theorem naiveStep_mono (s : List Char) : ∀ (b : Nat × Nat) (i : Nat),
    b.1 ≤ (naiveStep s b i).1 := by
  intro b i
  rw [naiveStep]
  calc b.1 ≤ (expandAroundCenter s i i b.1 b.2).1 :=
        expandAroundCenter_mono s i i b.1 b.2
    _ ≤ _ := expandAroundCenter_mono s i (i + 1) _ _

theorem naiveStep_good (s : List Char) : ∀ (b : Nat × Nat) (i : Nat),
    goodSpan s b → goodSpan s (naiveStep s b i) := by
  intro b i hb
  rw [naiveStep]
  have h1 : goodSpan s (expandAroundCenter s i i b.1 b.2) :=
    expandAroundCenter_good s i i b.1 b.2 (le_refl i)
      (by simpa using palSlice_zero s (i + 1)) hb
  exact expandAroundCenter_good s i (i + 1) _ _ (by omega)
    (by simpa using palSlice_zero s (i + 1)) h1

theorem dpStep_mono (s : List Char) : ∀ (b : Nat × Nat) (i : Nat),
    b.1 ≤ (dpStep s b i).1 := by
  intro b i
  rw [dpStep]
  split
  · calc b.1 ≤ (expandAroundCenter s i i b.1 b.2).1 :=
          expandAroundCenter_mono s i i b.1 b.2
      _ ≤ _ := expandAroundCenter_mono s i (i + 1) _ _
  · exact expandAroundCenter_mono s i i b.1 b.2

theorem dpStep_good (s : List Char) : ∀ (b : Nat × Nat) (i : Nat),
    goodSpan s b → goodSpan s (dpStep s b i) := by
  intro b i hb
  rw [dpStep]
  have h1 : goodSpan s (expandAroundCenter s i i b.1 b.2) :=
    expandAroundCenter_good s i i b.1 b.2 (le_refl i)
      (by simpa using palSlice_zero s (i + 1)) hb
  split
  · exact expandAroundCenter_good s i (i + 1) _ _ (by omega)
      (by simpa using palSlice_zero s (i + 1)) h1
  · exact h1

theorem manacherOddStep_mono (s : List Char) : ∀ (b : Nat × Nat) (i : Nat),
    b.1 ≤ (manacherOddStep s b i).1 := by
  intro b i
  rw [manacherOddStep]
  split
  · exact le_refl _
  · exact expandAroundCenter_mono s (i - 1) (i + 1) b.1 b.2

theorem manacherOddStep_good (s : List Char) : ∀ (b : Nat × Nat) (i : Nat),
    goodSpan s b → goodSpan s (manacherOddStep s b i) := by
  intro b i hb
  rw [manacherOddStep]
  split
  · exact hb
  · rename_i hi0
    have hi1 : 1 ≤ i := by omega
    have hcore : palSlice s (i - 1 + 1) ((i + 1) - (i - 1) - 1) := by
      have h1 : i - 1 + 1 = i := by omega
      have h2 : (i + 1) - (i - 1) - 1 = 1 := by omega
      rw [h1, h2]
      exact palSlice_one s i
    exact expandAroundCenter_good s (i - 1) (i + 1) b.1 b.2 (by omega) hcore hb

theorem manacherEvenStep_mono (s : List Char) : ∀ (b : Nat × Nat) (i : Nat),
    b.1 ≤ (manacherEvenStep s b i).1 := by
  intro b i
  rw [manacherEvenStep]
  split
  · exact expandAroundCenter_mono s i (i + 1) b.1 b.2
  · exact le_refl _

theorem manacherEvenStep_good (s : List Char) : ∀ (b : Nat × Nat) (i : Nat),
    goodSpan s b → goodSpan s (manacherEvenStep s b i) := by
  intro b i hb
  rw [manacherEvenStep]
  split
  · exact expandAroundCenter_good s i (i + 1) b.1 b.2 (by omega)
      (by simpa using palSlice_zero s (i + 1)) hb
  · exact hb

/-! ### Symmetry of palindromic spans around their center -/

theorem palSlice_sym_odd (s : List Char) (a k : Nat)
    (hp : palSlice s a (2 * k + 1)) : ∀ j, j ≤ k →
    s.getD (a + k - j) (Char.ofNat 32) = s.getD (a + k + j) (Char.ofNat 32) := by
  intro j hj
  have := hp (k - j) (by omega)
  have h1 : a + (k - j) = a + k - j := by omega
  have h2 : a + (2 * k + 1) - 1 - (k - j) = a + k + j := by omega
  rwa [h1, h2] at this

theorem palSlice_sym_even (s : List Char) (a k : Nat)
    (hp : palSlice s a (2 * k + 2)) : ∀ j, j ≤ k →
    s.getD (a + k - j) (Char.ofNat 32) =
      s.getD (a + k + 1 + j) (Char.ofNat 32) := by
  intro j hj
  have := hp (k - j) (by omega)
  have h1 : a + (k - j) = a + k - j := by omega
  have h2 : a + (2 * k + 2) - 1 - (k - j) = a + k + 1 + j := by omega
  rwa [h1, h2] at this

/-! ### Dominance: every palindromic span is bounded by the scan's best -/

theorem naiveCenters_good (s : List Char) : goodSpan s (naiveCenters s) :=
  foldl_best_good (naiveStep_good s) _ _ (Or.inl rfl)

theorem naiveCenters_dominates (s : List Char) (a len : Nat)
    (hb : a + len ≤ s.length) (hp : palSlice s a len) :
    len ≤ (naiveCenters s).1 := by
  rcases Nat.eq_zero_or_pos len with rfl | hpos
  · omega
  · rcases Nat.even_or_odd len with ⟨k, hk⟩ | ⟨k, hk⟩
    · -- even length: len = 2 * k, with k ≥ 1; use center pair (a+k-1, a+k)
      have hk1 : 1 ≤ k := by omega
      have hodd : ∀ j, j ≤ k - 1 → (a + k - 1) - j ≥ 0 ∧
          True := by intro j hj; exact ⟨by omega, trivial⟩
      have hreach : ∀ b : Nat × Nat, len ≤ (naiveStep s b (a + k - 1)).1 := by
        intro b
        rw [naiveStep]
        have hidx : a + k - 1 + 1 = a + k := by omega
        rw [hidx]
        have hcomp := expandAroundCenter_complete s (k - 1) (a + k - 1)
          (a + k) (expandAroundCenter s (a + k - 1) (a + k - 1) b.1 b.2).1
          (expandAroundCenter s (a + k - 1) (a + k - 1) b.1 b.2).2
          (by omega) ?_
        · omega
        · intro j hj
          refine ⟨by omega, by omega, ?_⟩
          have hsym := palSlice_sym_even s a (k - 1)
            (by have : 2 * (k - 1) + 2 = len := by omega
                rwa [this]) j hj
          have h1 : a + (k - 1) - j = a + k - 1 - j := by omega
          have h2 : a + (k - 1) + 1 + j = a + k + j := by omega
          rwa [h1, h2] at hsym
      exact foldl_best_reach (naiveStep_mono s) hreach _ _
        (List.mem_range.mpr (by omega))
    · -- odd length: len = 2 * k + 1; use center a + k
      have hreach : ∀ b : Nat × Nat, len ≤ (naiveStep s b (a + k)).1 := by
        intro b
        rw [naiveStep]
        have hcomp := expandAroundCenter_complete s k (a + k) (a + k)
          b.1 b.2 (le_refl _) ?_
        · have := expandAroundCenter_mono s (a + k) (a + k + 1)
            (expandAroundCenter s (a + k) (a + k) b.1 b.2).1
            (expandAroundCenter s (a + k) (a + k) b.1 b.2).2
          omega
        · intro j hj
          refine ⟨by omega, by omega, ?_⟩
          have hsym := palSlice_sym_odd s a k (by rwa [hk] at hp) j hj
          have h1 : a + k - j = a + k - j := rfl
          exact hsym
      exact foldl_best_reach (naiveStep_mono s) hreach _ _
        (List.mem_range.mpr (by omega))

theorem dpCenters_good (s : List Char) (hn : 1 ≤ s.length) :
    goodSpan s (dpCenters s) :=
  foldl_best_good (dpStep_good s) _ _
    (Or.inr ⟨by simpa using hn, palSlice_one s 0⟩)

theorem dpCenters_pos (s : List Char) : 1 ≤ (dpCenters s).1 :=
  foldl_best_mono (dpStep_mono s) _ (1, 0)

theorem dpCenters_dominates (s : List Char) (a len : Nat)
    (hb : a + len ≤ s.length) (hp : palSlice s a len) :
    len ≤ (dpCenters s).1 := by
  rcases Nat.eq_zero_or_pos len with rfl | hpos
  · omega
  · rcases Nat.even_or_odd len with ⟨k, hk⟩ | ⟨k, hk⟩
    · have hk1 : 1 ≤ k := by omega
      have hreach : ∀ b : Nat × Nat, len ≤ (dpStep s b (a + k - 1)).1 := by
        intro b
        rw [dpStep]
        rw [if_pos (show a + k - 1 + 1 < s.length by omega)]
        have hidx : a + k - 1 + 1 = a + k := by omega
        rw [hidx]
        have hcomp := expandAroundCenter_complete s (k - 1) (a + k - 1)
          (a + k) (expandAroundCenter s (a + k - 1) (a + k - 1) b.1 b.2).1
          (expandAroundCenter s (a + k - 1) (a + k - 1) b.1 b.2).2
          (by omega) ?_
        · omega
        · intro j hj
          refine ⟨by omega, by omega, ?_⟩
          have hsym := palSlice_sym_even s a (k - 1)
            (by have h2 : 2 * (k - 1) + 2 = len := by omega
                rwa [h2]) j hj
          have h1 : a + (k - 1) - j = a + k - 1 - j := by omega
          have h2 : a + (k - 1) + 1 + j = a + k + j := by omega
          rwa [h1, h2] at hsym
      exact foldl_best_reach (dpStep_mono s) hreach _ _
        (List.mem_range.mpr (by omega))
    · have hreach : ∀ b : Nat × Nat, len ≤ (dpStep s b (a + k)).1 := by
        intro b
        rw [dpStep]
        have hcomp := expandAroundCenter_complete s k (a + k) (a + k)
          b.1 b.2 (le_refl _) ?_
        · split
          · have := expandAroundCenter_mono s (a + k) (a + k + 1)
              (expandAroundCenter s (a + k) (a + k) b.1 b.2).1
              (expandAroundCenter s (a + k) (a + k) b.1 b.2).2
            omega
          · omega
        · intro j hj
          refine ⟨by omega, by omega, ?_⟩
          exact palSlice_sym_odd s a k (by rwa [hk] at hp) j hj
      exact foldl_best_reach (dpStep_mono s) hreach _ _
        (List.mem_range.mpr (by omega))

theorem manacherCenters_good (s : List Char) (hn : 1 ≤ s.length) :
    goodSpan s (manacherCenters s) := by
  rw [manacherCenters]
  exact foldl_best_good (manacherEvenStep_good s) _ _
    (foldl_best_good (manacherOddStep_good s) _ _
      (Or.inr ⟨by simpa using hn, palSlice_one s 0⟩))

theorem manacherCenters_pos (s : List Char) : 1 ≤ (manacherCenters s).1 := by
  rw [manacherCenters]
  calc (1 : Nat) = ((1, 0) : Nat × Nat).1 := rfl
    _ ≤ ((List.range s.length).foldl (manacherOddStep s) (1, 0)).1 :=
        foldl_best_mono (manacherOddStep_mono s) _ _
    _ ≤ _ := foldl_best_mono (manacherEvenStep_mono s) _ _

theorem manacherCenters_dominates (s : List Char) (a len : Nat)
    (hb : a + len ≤ s.length) (hp : palSlice s a len) :
    len ≤ (manacherCenters s).1 := by
  rcases Nat.eq_zero_or_pos len with rfl | hpos
  · omega
  · rw [manacherCenters]
    rcases Nat.even_or_odd len with ⟨k, hk⟩ | ⟨k, hk⟩
    · -- even length k + k with k ≥ 1: found by the even pass
      have hk1 : 1 ≤ k := by omega
      have hguard : s.getD (a + k - 1) (Char.ofNat 32) =
          s.getD (a + k - 1 + 1) (Char.ofNat 32) := by
        have hsym := palSlice_sym_even s a (k - 1)
          (by have h2 : 2 * (k - 1) + 2 = len := by omega
              rwa [h2]) 0 (by omega)
        have h1 : a + (k - 1) - 0 = a + k - 1 := by omega
        have h2 : a + (k - 1) + 1 + 0 = a + k - 1 + 1 := by omega
        rwa [h1, h2] at hsym
      have hreach : ∀ b : Nat × Nat,
          len ≤ (manacherEvenStep s b (a + k - 1)).1 := by
        intro b
        rw [manacherEvenStep, if_pos hguard]
        have hidx : a + k - 1 + 1 = a + k := by omega
        rw [hidx]
        have hcomp := expandAroundCenter_complete s (k - 1) (a + k - 1)
          (a + k) b.1 b.2 (by omega) ?_
        · omega
        · intro j hj
          refine ⟨by omega, by omega, ?_⟩
          have hsym := palSlice_sym_even s a (k - 1)
            (by have h2 : 2 * (k - 1) + 2 = len := by omega
                rwa [h2]) j hj
          have h1 : a + (k - 1) - j = a + k - 1 - j := by omega
          have h2 : a + (k - 1) + 1 + j = a + k + j := by omega
          rwa [h1, h2] at hsym
      exact foldl_best_reach (manacherEvenStep_mono s) hreach _ _
        (List.mem_range.mpr (by omega))
    · -- odd length 2k + 1: k = 0 is covered by the initial best of 1,
      -- k ≥ 1 by the odd pass at center a + k
      rcases Nat.eq_zero_or_pos k with rfl | hkpos
      · have h1 : len = 1 := by omega
        rw [h1]
        calc (1 : Nat) = ((1, 0) : Nat × Nat).1 := rfl
          _ ≤ ((List.range s.length).foldl (manacherOddStep s) (1, 0)).1 :=
              foldl_best_mono (manacherOddStep_mono s) _ _
          _ ≤ _ := foldl_best_mono (manacherEvenStep_mono s) _ _
      · have hreach : ∀ b : Nat × Nat,
            len ≤ (manacherOddStep s b (a + k)).1 := by
          intro b
          rw [manacherOddStep, if_neg (show ¬ a + k = 0 by omega)]
          have hcomp := expandAroundCenter_complete s (k - 1) (a + k - 1)
            (a + k + 1) b.1 b.2 (by omega) ?_
          · omega
          · intro j hj
            refine ⟨by omega, by omega, ?_⟩
            have hsym := palSlice_sym_odd s a k (by rwa [hk] at hp)
              (j + 1) (by omega)
            have h1 : a + k - (j + 1) = a + k - 1 - j := by omega
            have h2 : a + k + (j + 1) = a + k + 1 + j := by omega
            rwa [h1, h2] at hsym
        have hodd : len ≤
            ((List.range s.length).foldl (manacherOddStep s) (1, 0)).1 :=
          foldl_best_reach (manacherOddStep_mono s) hreach _ _
            (List.mem_range.mpr (by omega))
        calc len ≤ _ := hodd
          _ ≤ _ := foldl_best_mono (manacherEvenStep_mono s) _ _

/-! ### The three scans agree on the optimal length -/

theorem good_le_dominator (s : List Char) (x y : Nat × Nat)
    (hgood : goodSpan s x)
    (hdom : ∀ a len, a + len ≤ s.length → palSlice s a len → len ≤ y.1) :
    x.1 ≤ y.1 := by
  rcases hgood with h0 | ⟨hb, hp⟩
  · omega
  · exact hdom x.2 x.1 hb hp

theorem naiveCenters_pos (s : List Char) (hn : 1 ≤ s.length) :
    1 ≤ (naiveCenters s).1 :=
  naiveCenters_dominates s 0 1 (by omega) (palSlice_one s 0)

theorem centers_agree (s : List Char) (hn : 1 ≤ s.length) :
    (naiveCenters s).1 = (dpCenters s).1 ∧
      (dpCenters s).1 = (manacherCenters s).1 := by
  have h1 : (naiveCenters s).1 ≤ (dpCenters s).1 :=
    good_le_dominator s _ _ (naiveCenters_good s) (dpCenters_dominates s)
  have h2 : (dpCenters s).1 ≤ (manacherCenters s).1 :=
    good_le_dominator s _ _ (dpCenters_good s hn)
      (manacherCenters_dominates s)
  have h3 : (manacherCenters s).1 ≤ (naiveCenters s).1 :=
    good_le_dominator s _ _ (manacherCenters_good s hn)
      (naiveCenters_dominates s)
  omega

/-! ### Top-level behaviour of the three algorithms -/

theorem naiveCenters_facts (p : List Char) (hn : 1 ≤ p.length) :
    1 ≤ (naiveCenters p).1 ∧
      (naiveCenters p).2 + (naiveCenters p).1 ≤ p.length ∧
      palSlice p (naiveCenters p).2 (naiveCenters p).1 := by
  have hpos := naiveCenters_pos p hn
  rcases naiveCenters_good p with h0 | ⟨hb, hp⟩
  · omega
  · exact ⟨hpos, hb, hp⟩

theorem dpCenters_facts (p : List Char) (hn : 1 ≤ p.length) :
    1 ≤ (dpCenters p).1 ∧
      (dpCenters p).2 + (dpCenters p).1 ≤ p.length ∧
      palSlice p (dpCenters p).2 (dpCenters p).1 := by
  have hpos := dpCenters_pos p
  rcases dpCenters_good p hn with h0 | ⟨hb, hp⟩
  · omega
  · exact ⟨hpos, hb, hp⟩

theorem manacherCenters_facts (p : List Char) (hn : 1 ≤ p.length) :
    1 ≤ (manacherCenters p).1 ∧
      (manacherCenters p).2 + (manacherCenters p).1 ≤ p.length ∧
      palSlice p (manacherCenters p).2 (manacherCenters p).1 := by
  have hpos := manacherCenters_pos p
  rcases manacherCenters_good p hn with h0 | ⟨hb, hp⟩
  · omega
  · exact ⟨hpos, hb, hp⟩

theorem naiveSpan_eq (p : List Char) (hn : 1 ≤ p.length) :
    naiveSpan p = naiveCenters p := by
  rw [naiveSpan]
  have := naiveCenters_pos p hn
  split
  · omega
  · rfl

theorem naive_validation_passes (p : List Char) (hn : 1 ≤ p.length) :
    validatePalindrome (spanSlice p (naiveSpan p).2 (naiveSpan p).1) = true := by
  rw [naiveSpan_eq p hn]
  obtain ⟨h1, h2, h3⟩ := naiveCenters_facts p hn
  exact validatePalindrome_of_palSlice p _ _ h1 h2 h3

theorem dp_validation_passes (p : List Char) (hn : 1 ≤ p.length) :
    validatePalindrome (spanSlice p (dpCenters p).2 (dpCenters p).1) = true := by
  obtain ⟨h1, h2, h3⟩ := dpCenters_facts p hn
  exact validatePalindrome_of_palSlice p _ _ h1 h2 h3

theorem manacher_validation_passes (p : List Char) (hn : 1 ≤ p.length) :
    validatePalindrome
      (spanSlice p (manacherCenters p).2 (manacherCenters p).1) = true := by
  obtain ⟨h1, h2, h3⟩ := manacherCenters_facts p hn
  exact validatePalindrome_of_palSlice p _ _ h1 h2 h3

theorem naiveLPS_empty (indexMapping : List Nat) (originalStr : List Char) :
    naiveLPS [] indexMapping originalStr = [] := rfl

theorem naiveLPS_normal (p : List Char) (im : List Nat) (orig : List Char)
    (hn : 1 ≤ p.length) :
    naiveLPS p im orig =
      mapSpanBack orig im (naiveCenters p).2 (naiveCenters p).1 := by
  rw [naiveLPS]
  rw [if_neg (by omega : ¬ ((naiveCenters p).1 = 0 ∧ p.length = 0))]
  rw [naiveSpan_eq p hn]
  rw [if_pos]
  rw [← naiveSpan_eq p hn]
  exact naive_validation_passes p hn

theorem dpLPS_empty (indexMapping : List Nat) (originalStr : List Char) :
    dpLPS [] indexMapping originalStr = [] := rfl

theorem firstCharFallback_eq_mapSpanBack (orig : List Char) (im : List Nat) :
    firstCharFallback orig im = mapSpanBack orig im 0 1 := rfl

theorem dpLPS_one (p : List Char) (im : List Nat) (orig : List Char)
    (h1 : p.length = 1) : dpLPS p im orig = mapSpanBack orig im 0 1 := by
  rw [dpLPS, if_neg (by omega), if_pos h1, firstCharFallback_eq_mapSpanBack]

theorem dpLPS_normal (p : List Char) (im : List Nat) (orig : List Char)
    (hn : 2 ≤ p.length) :
    dpLPS p im orig =
      mapSpanBack orig im (dpCenters p).2 (dpCenters p).1 := by
  rw [dpLPS, if_neg (by omega), if_neg (by omega)]
  rw [if_pos (dp_validation_passes p (by omega))]

theorem manacherLPS_empty (indexMapping : List Nat)
    (originalStr : List Char) :
    manacherLPS [] indexMapping originalStr = [] := rfl

theorem manacherLPS_one (p : List Char) (im : List Nat) (orig : List Char)
    (h1 : p.length = 1) : manacherLPS p im orig = mapSpanBack orig im 0 1 := by
  have hne : p.isEmpty = false := by
    rcases p with _ | ⟨x, xs⟩
    · simp at h1
    · rfl
  rw [manacherLPS, hne]
  simp only [Bool.false_eq_true, if_false]
  rw [if_pos h1, firstCharFallback_eq_mapSpanBack]

theorem manacherLPS_normal (p : List Char) (im : List Nat) (orig : List Char)
    (hn : 2 ≤ p.length) :
    manacherLPS p im orig =
      mapSpanBack orig im (manacherCenters p).2 (manacherCenters p).1 := by
  have hne : p.isEmpty = false := by
    rcases p with _ | ⟨x, xs⟩
    · simp at hn
    · rfl
  rw [manacherLPS, hne]
  simp only [Bool.false_eq_true, if_false]
  rw [if_neg (by omega)]
  rw [if_pos (manacher_validation_passes p (by omega))]

/-! ### The full pipeline: preprocess, scan, map back, canonicalize -/

theorem runNaive_nil (s : List Char) (h0 : canonicalize s = []) :
    runNaive s = [] := by
  simp only [runNaive, preprocessString]
  rw [h0]
  exact naiveLPS_empty _ _

theorem runDp_nil (s : List Char) (h0 : canonicalize s = []) :
    runDp s = [] := by
  simp only [runDp, preprocessString]
  rw [h0]
  exact dpLPS_empty _ _

theorem runManacher_nil (s : List Char) (h0 : canonicalize s = []) :
    runManacher s = [] := by
  simp only [runManacher, preprocessString]
  rw [h0]
  exact manacherLPS_empty _ _

theorem runNaive_canon (s : List Char) (hn : 1 ≤ (canonicalize s).length) :
    canonicalize (runNaive s) =
      spanSlice (canonicalize s) (naiveCenters (canonicalize s)).2
        (naiveCenters (canonicalize s)).1 := by
  have hrun : runNaive s = mapSpanBack s (alnumIndices s)
      (naiveCenters (canonicalize s)).2 (naiveCenters (canonicalize s)).1 :=
    naiveLPS_normal (canonicalize s) (alnumIndices s) s hn
  rw [hrun]
  obtain ⟨h1, h2, _⟩ := naiveCenters_facts (canonicalize s) hn
  exact canonicalize_mapSpanBack s _ _ h1 h2

theorem runDp_canon (s : List Char) (hn : 1 ≤ (canonicalize s).length) :
    canonicalize (runDp s) =
      spanSlice (canonicalize s) (dpCenters (canonicalize s)).2
        (dpCenters (canonicalize s)).1 := by
  obtain ⟨hb1, hb2, _⟩ := dpCenters_facts (canonicalize s) hn
  rcases Nat.lt_or_ge (canonicalize s).length 2 with hlt | hge
  · have hlen1 : (canonicalize s).length = 1 := by omega
    have hrun : runDp s = mapSpanBack s (alnumIndices s) 0 1 :=
      dpLPS_one (canonicalize s) (alnumIndices s) s hlen1
    have hbl : (dpCenters (canonicalize s)).1 = 1 := by omega
    have hbs : (dpCenters (canonicalize s)).2 = 0 := by omega
    rw [hrun, hbl, hbs]
    exact canonicalize_mapSpanBack s 0 1 (le_refl 1) (by omega)
  · have hrun : runDp s = mapSpanBack s (alnumIndices s)
        (dpCenters (canonicalize s)).2 (dpCenters (canonicalize s)).1 :=
      dpLPS_normal (canonicalize s) (alnumIndices s) s hge
    rw [hrun]
    exact canonicalize_mapSpanBack s _ _ hb1 hb2

theorem runManacher_canon (s : List Char)
    (hn : 1 ≤ (canonicalize s).length) :
    canonicalize (runManacher s) =
      spanSlice (canonicalize s) (manacherCenters (canonicalize s)).2
        (manacherCenters (canonicalize s)).1 := by
  obtain ⟨hb1, hb2, _⟩ := manacherCenters_facts (canonicalize s) hn
  rcases Nat.lt_or_ge (canonicalize s).length 2 with hlt | hge
  · have hlen1 : (canonicalize s).length = 1 := by omega
    have hrun : runManacher s = mapSpanBack s (alnumIndices s) 0 1 :=
      manacherLPS_one (canonicalize s) (alnumIndices s) s hlen1
    have hbl : (manacherCenters (canonicalize s)).1 = 1 := by omega
    have hbs : (manacherCenters (canonicalize s)).2 = 0 := by omega
    rw [hrun, hbl, hbs]
    exact canonicalize_mapSpanBack s 0 1 (le_refl 1) (by omega)
  · have hrun : runManacher s = mapSpanBack s (alnumIndices s)
        (manacherCenters (canonicalize s)).2
        (manacherCenters (canonicalize s)).1 :=
      manacherLPS_normal (canonicalize s) (alnumIndices s) s hge
    rw [hrun]
    exact canonicalize_mapSpanBack s _ _ hb1 hb2

theorem canonLen_naive (s : List Char) (hn : 1 ≤ (canonicalize s).length) :
    (canonicalize (runNaive s)).length = (naiveCenters (canonicalize s)).1 := by
  rw [runNaive_canon s hn]
  obtain ⟨_, h2, _⟩ := naiveCenters_facts (canonicalize s) hn
  exact spanSlice_length _ _ _ h2

theorem canonLen_dp (s : List Char) (hn : 1 ≤ (canonicalize s).length) :
    (canonicalize (runDp s)).length = (dpCenters (canonicalize s)).1 := by
  rw [runDp_canon s hn]
  obtain ⟨_, h2, _⟩ := dpCenters_facts (canonicalize s) hn
  exact spanSlice_length _ _ _ h2

theorem canonLen_manacher (s : List Char)
    (hn : 1 ≤ (canonicalize s).length) :
    (canonicalize (runManacher s)).length =
      (manacherCenters (canonicalize s)).1 := by
  rw [runManacher_canon s hn]
  obtain ⟨_, h2, _⟩ := manacherCenters_facts (canonicalize s) hn
  exact spanSlice_length _ _ _ h2

/-! ### Harness lemmas -/

theorem iterationsForLength_pos (n : Nat) : 1 ≤ iterationsForLength n := by
  rw [iterationsForLength]
  split
  · omega
  split
  · omega
  split <;> omega

theorem iterationsForLength_antitone (m m' : Nat) (h : m ≤ m') :
    iterationsForLength m' ≤ iterationsForLength m := by
  rw [iterationsForLength, iterationsForLength]
  split_ifs <;> omega

theorem collectSamples_no_flag : ∀ l : List IterObs,
    (∀ o ∈ l, o.timedOutFlag = false) → collectSamples l = l
  | [], _ => rfl
  | o :: rest, h => by
      rw [collectSamples]
      rw [h o (List.mem_cons_self o rest)]
      simp only [Bool.false_eq_true, if_false]
      rw [collectSamples_no_flag rest
        (fun x hx => h x (List.mem_cons_of_mem o hx))]

theorem collectSamples_break : ∀ (l1 : List IterObs) (o : IterObs)
    (l2 : List IterObs), (∀ x ∈ l1, x.timedOutFlag = false) →
    o.timedOutFlag = true → collectSamples (l1 ++ o :: l2) = l1 ++ [o]
  | [], o, l2, _, ho => by
      simp only [List.nil_append]
      rw [collectSamples, ho]
      simp
  | x :: l1, o, l2, h1, ho => by
      rw [List.cons_append, collectSamples]
      rw [h1 x (List.mem_cons_self x l1)]
      simp only [Bool.false_eq_true, if_false]
      rw [collectSamples_break l1 o l2
        (fun y hy => h1 y (List.mem_cons_of_mem x hy)) ho]
      rfl

theorem insertAsc_perm (x : ℚ) (l : List ℚ) : (insertAsc x l).Perm (x :: l) := by
  induction l with
  | nil => exact List.Perm.refl _
  | cons y ys ih =>
      rw [insertAsc]
      split
      · exact List.Perm.refl _
      · exact List.Perm.trans (List.Perm.cons y ih) (List.Perm.swap x y ys)

theorem sortAsc_perm (l : List ℚ) : (sortAsc l).Perm l := by
  induction l with
  | nil => exact List.Perm.refl _
  | cons x xs ih =>
      simp only [sortAsc, List.foldr_cons] at ih ⊢
      exact List.Perm.trans (insertAsc_perm _ _) (List.Perm.cons x ih)

theorem insertAsc_sorted (x : ℚ) (l : List ℚ) (h : l.Pairwise (· ≤ ·)) :
    (insertAsc x l).Pairwise (· ≤ ·) := by
  induction l with
  | nil => simp [insertAsc]
  | cons y ys ih =>
      rw [insertAsc]
      split
      · rename_i hxy
        refine List.Pairwise.cons ?_ h
        intro z hz
        rcases List.mem_cons.mp hz with rfl | hz'
        · exact hxy
        · have hy := (List.pairwise_cons.mp h).1 z hz'
          linarith
      · rename_i hxy
        push_neg at hxy
        obtain ⟨hy, hys⟩ := List.pairwise_cons.mp h
        refine List.pairwise_cons.mpr ⟨?_, ih hys⟩
        intro z hz
        have hz' := (insertAsc_perm x ys).mem_iff.mp hz
        rcases List.mem_cons.mp hz' with rfl | hz''
        · linarith
        · exact hy z hz''

theorem sortAsc_sorted (l : List ℚ) : (sortAsc l).Pairwise (· ≤ ·) := by
  induction l with
  | nil => simp [sortAsc]
  | cons x xs ih =>
      simp only [sortAsc, List.foldr_cons] at ih ⊢
      exact insertAsc_sorted x _ ih

theorem trimOutliers_small (l : List ℚ) (h : l.length < 5) :
    trimOutliers l = l := by
  rw [trimOutliers, if_neg (by omega)]

theorem trimOutliers_large (l : List ℚ) (h : 5 ≤ l.length) :
    trimOutliers l =
      (l.take (l.length - l.length / 5)).drop (l.length / 5) := by
  rw [trimOutliers, if_pos h]

theorem trimOutliers_length (l : List ℚ) (h : 5 ≤ l.length) :
    (trimOutliers l).length + 2 * (l.length / 5) = l.length := by
  rw [trimOutliers_large l h]
  simp only [List.length_drop, List.length_take]
  omega

theorem measurePerformance_emptyInput
    (f : List Char → List Nat → List Char → List Char) (im : List Nat)
    (orig : List Char) (obs : List IterObs) :
    measurePerformance f [] im orig obs =
      ⟨[], [], ⟨[], 0, 0, false, false, 0, []⟩⟩ := rfl

theorem isEmpty_false_of_ne_nil {p : List Char} (hp : p ≠ []) :
    p.isEmpty = false := by
  rcases p with _ | ⟨x, xs⟩
  · exact absurd rfl hp
  · rfl

theorem measurePerformance_no_timeout
    (f : List Char → List Nat → List Char → List Char) (p : List Char)
    (im : List Nat) (orig : List Char) (obs : List IterObs) (hp : p ≠ [])
    (hflags : ∀ o ∈ obs.take (iterationsForLength p.length),
      o.timedOutFlag = false) :
    measurePerformance f p im orig obs =
      ⟨[f p im orig, f p im orig],
       (obs.take (iterationsForLength p.length)).map (fun _ => f p im orig),
       ⟨((obs.take (iterationsForLength p.length)).map
           (fun _ => f p im orig)).headD [],
        toFixed2 (average (trimOutliers (sortAsc
          ((obs.take (iterationsForLength p.length)).map
            (fun o => o.endTime - o.startTime))))),
        toFixed2 (average (trimOutliers (sortAsc
          ((obs.take (iterationsForLength p.length)).map
            (fun o => memSampleKB o.baselineMemory o.finalMemory))))),
        false,
        decide (average (trimOutliers (sortAsc
          ((obs.take (iterationsForLength p.length)).map
            (fun o => memSampleKB o.baselineMemory o.finalMemory)))) ≤ 0),
        (trimOutliers (sortAsc
          ((obs.take (iterationsForLength p.length)).map
            (fun o => o.endTime - o.startTime)))).length,
        trimOutliers (sortAsc
          ((obs.take (iterationsForLength p.length)).map
            (fun o => o.endTime - o.startTime)))⟩⟩ := by
  have hne : p.isEmpty = false := isEmpty_false_of_ne_nil hp
  have hany : (obs.take (iterationsForLength p.length)).any
      (fun o => o.timedOutFlag) = false := by
    rw [List.any_eq_false]
    intro x hx
    rw [hflags x hx]
    exact Bool.false_ne_true
  simp only [measurePerformance, hne, Bool.false_eq_true, if_false]
  rw [collectSamples_no_flag _ hflags, hany]
  simp only [Bool.false_eq_true, if_false]

theorem measurePerformance_timeout
    (f : List Char → List Nat → List Char → List Char) (p : List Char)
    (im : List Nat) (orig : List Char) (obs : List IterObs) (hp : p ≠ [])
    (hto : (collectSamples (obs.take (iterationsForLength p.length))).any
      (fun o => o.timedOutFlag) = true) :
    (measurePerformance f p im orig obs).res =
      ⟨timeoutMessage, MAX_EXECUTION_TIME, 0, true, false, 0, []⟩ := by
  have hne : p.isEmpty = false := isEmpty_false_of_ne_nil hp
  simp only [measurePerformance, hne, Bool.false_eq_true, if_false, hto,
    if_true]

theorem measurePerformance_invocations
    (f : List Char → List Nat → List Char → List Char) (p : List Char)
    (im : List Nat) (orig : List Char) (obs : List IterObs) :
    (∀ r ∈ (measurePerformance f p im orig obs).warmupResults,
      r = f p im orig) ∧
    (∀ r ∈ (measurePerformance f p im orig obs).iterationResults,
      r = f p im orig) := by
  simp only [measurePerformance]
  split
  · constructor <;> (intro r hr; simp at hr)
  · constructor
    · split <;>
        (intro r hr;
         rcases List.mem_cons.mp hr with rfl | hr'
         · rfl
         · rcases List.mem_cons.mp hr' with rfl | hr''
           · rfl
           · simp at hr'')
    · split <;>
        (intro r hr;
         rcases List.mem_map.mp hr with ⟨_, _, rfl⟩
         rfl)

/-! ### Helpers for boundary cases and determinism -/

theorem take_drop_singleton : ∀ (s : List Char) (i : Nat), i < s.length →
    (s.take (i + 1)).drop i = [s.getD i (Char.ofNat 32)]
  | x :: xs, 0, _ => by simp
  | x :: xs, i + 1, h => by
      rw [List.take_succ_cons, List.drop_succ_cons]
      exact take_drop_singleton xs i (by simpa using h)

theorem mapSpanBack_one (orig : List Char) (im : List Nat)
    (h : im.getD 0 0 < orig.length) :
    mapSpanBack orig im 0 1 = [orig.getD (im.getD 0 0) (Char.ofNat 32)] := by
  rw [mapSpanBack]
  simp only [Nat.add_sub_cancel]
  rw [jsSubstring_of_le _ _ _ (by omega)]
  exact take_drop_singleton orig (im.getD 0 0) h

theorem alnumIndices_replicate (n : Nat) (c : Char)
    (hc : isAlnumChar c = true) :
    alnumIndices (List.replicate n c) = List.range n := by
  induction n with
  | zero => rfl
  | succ n ih =>
      rw [List.replicate_succ, alnumIndices, if_pos hc, ih,
        List.range_succ_eq_map]

theorem canonicalize_replicate (n : Nat) (c : Char)
    (hc : isAlnumChar c = true) :
    canonicalize (List.replicate n c) = List.replicate n (jsToLower c) := by
  induction n with
  | zero => rfl
  | succ n ih =>
      rw [List.replicate_succ, List.replicate_succ]
      simp only [canonicalize] at ih ⊢
      rw [List.filter_cons_of_pos hc, List.map_cons, ih]

theorem getD_range (n k : Nat) (h : k < n) : (List.range n).getD k 0 = k := by
  rw [getD_eq_getElem' _ _ _ (by simpa using h)]
  simp

theorem palSlice_replicate (m n : Nat) (c : Char) (hnm : n ≤ m) :
    palSlice (List.replicate m c) 0 n := by
  intro j hj
  have h1 : 0 + j < m := by omega
  have h2 : 0 + n - 1 - j < m := by omega
  rw [getD_replicate _ _ _ _ h1, getD_replicate _ _ _ _ h2]

theorem take_ne_nil {α : Type} (l : List α) (n : Nat) (hn : 1 ≤ n)
    (hl : l ≠ []) : l.take n ≠ [] := by
  rcases l with _ | ⟨x, xs⟩
  · exact absurd rfl hl
  · rcases n with _ | n
    · omega
    · simp

theorem collectSamples_ne_nil (l : List IterObs) (hl : l ≠ []) :
    collectSamples l ≠ [] := by
  rcases l with _ | ⟨o, rest⟩
  · exact absurd rfl hl
  · rw [collectSamples]
    split <;> simp

theorem headD_map_const {α β : Type} (l : List α) (v d : β) (hl : l ≠ []) :
    (l.map (fun _ => v)).headD d = v := by
  rcases l with _ | ⟨x, xs⟩
  · exact absurd rfl hl
  · rfl

theorem collectSamples_any_false : ∀ l : List IterObs,
    (collectSamples l).any (fun o => o.timedOutFlag) = false →
    ∀ o ∈ l, o.timedOutFlag = false
  | [], _ => by intro o ho; simp at ho
  | o :: rest, h => by
      intro x hx
      rw [collectSamples] at h
      by_cases ho : o.timedOutFlag = true
      · rw [if_pos ho] at h
        simp [ho] at h
      · rw [if_neg ho] at h
        simp only [List.any_cons, Bool.or_eq_false_iff] at h
        rcases List.mem_cons.mp hx with rfl | hx'
        · exact Bool.eq_false_iff.mpr ho
        · exact collectSamples_any_false rest h.2 x hx'

theorem measurePerformance_result_of_not_timedOut
    (f : List Char → List Nat → List Char → List Char) (p : List Char)
    (im : List Nat) (orig : List Char) (obs : List IterObs)
    (hobs : obs ≠ [])
    (hnt : (measurePerformance f p im orig obs).res.timedOut = false)
    (hfe : f [] im orig = []) :
    (measurePerformance f p im orig obs).res.result = f p im orig := by
  by_cases hp : p = []
  · subst hp
    rw [measurePerformance_emptyInput]
    exact hfe.symm
  · by_cases hto : (collectSamples (obs.take (iterationsForLength p.length))).any
        (fun o => o.timedOutFlag) = true
    · rw [measurePerformance_timeout f p im orig obs hp hto] at hnt
      simp at hnt
    · have hflags := collectSamples_any_false _ (Bool.eq_false_iff.mpr hto)
      rw [measurePerformance_no_timeout f p im orig obs hp hflags]
      exact headD_map_const _ _ _
        (take_ne_nil obs _ (iterationsForLength_pos p.length) hobs)

theorem mapSpanBack_range_full (orig : List Char) (n : Nat) (hn : 1 ≤ n) :
    mapSpanBack orig (List.range n) 0 n = orig.take n := by
  rw [mapSpanBack]
  simp only [Nat.zero_add]
  rw [getD_range n 0 hn, getD_range n (n - 1) (by omega)]
  have hsucc : n - 1 + 1 = n := by omega
  rw [hsucc, jsSubstring_of_le _ _ _ (by omega), List.drop_zero]

theorem run_replicate (n : Nat) (c : Char) (hc : isAlnumChar c = true) :
    runNaive (List.replicate n c) = List.replicate n c ∧
      runDp (List.replicate n c) = List.replicate n c ∧
      runManacher (List.replicate n c) = List.replicate n c := by
  rcases Nat.eq_zero_or_pos n with rfl | hn
  · exact ⟨runNaive_nil _ rfl, runDp_nil _ rfl, runManacher_nil _ rfl⟩
  · set s := List.replicate n c with hs
    have hp : canonicalize s = List.replicate n (jsToLower c) :=
      canonicalize_replicate n c hc
    have hlen : (canonicalize s).length = n := by rw [hp]; simp
    have him : alnumIndices s = List.range n := alnumIndices_replicate n c hc
    have hpal : palSlice (canonicalize s) 0 n := by
      rw [hp]
      exact palSlice_replicate n n _ (le_refl n)
    have hstake : s.take n = s := by
      rw [hs]
      exact List.take_of_length_le (by simp)
    have hone : 1 ≤ (canonicalize s).length := by omega
    -- naive
    obtain ⟨hn1, hn2, _⟩ := naiveCenters_facts (canonicalize s) hone
    have hnbl : (naiveCenters (canonicalize s)).1 = n := by
      have hge := naiveCenters_dominates (canonicalize s) 0 n (by omega) hpal
      omega
    have hnbs : (naiveCenters (canonicalize s)).2 = 0 := by omega
    have hnaive : runNaive s = s := by
      have := naiveLPS_normal (canonicalize s) (alnumIndices s) s hone
      rw [hnbl, hnbs, him] at this
      simp only [runNaive, preprocessString]
      rw [him, this, mapSpanBack_range_full s n hn, hstake]
    -- dp
    obtain ⟨hd1, hd2, _⟩ := dpCenters_facts (canonicalize s) hone
    have hdp : runDp s = s := by
      rcases Nat.lt_or_ge n 2 with hlt | hge2
      · have hlen1 : (canonicalize s).length = 1 := by omega
        have := dpLPS_one (canonicalize s) (alnumIndices s) s hlen1
        rw [him] at this
        have hn1' : n = 1 := by omega
        simp only [runDp, preprocessString]
        rw [him, this, hn1']
        rw [hn1'] at hstake
        rw [mapSpanBack_range_full s 1 (le_refl 1)]
        exact hstake
      · have hdbl : (dpCenters (canonicalize s)).1 = n := by
          have hge := dpCenters_dominates (canonicalize s) 0 n (by omega) hpal
          omega
        have hdbs : (dpCenters (canonicalize s)).2 = 0 := by omega
        have := dpLPS_normal (canonicalize s) (alnumIndices s) s (by omega)
        rw [hdbl, hdbs, him] at this
        simp only [runDp, preprocessString]
        rw [him, this, mapSpanBack_range_full s n hn, hstake]
    -- manacher
    obtain ⟨hm1, hm2, _⟩ := manacherCenters_facts (canonicalize s) hone
    have hman : runManacher s = s := by
      rcases Nat.lt_or_ge n 2 with hlt | hge2
      · have hlen1 : (canonicalize s).length = 1 := by omega
        have := manacherLPS_one (canonicalize s) (alnumIndices s) s hlen1
        rw [him] at this
        have hn1' : n = 1 := by omega
        simp only [runManacher, preprocessString]
        rw [him, this, hn1']
        rw [hn1'] at hstake
        rw [mapSpanBack_range_full s 1 (le_refl 1)]
        exact hstake
      · have hmbl : (manacherCenters (canonicalize s)).1 = n := by
          have hge := manacherCenters_dominates (canonicalize s) 0 n
            (by omega) hpal
          omega
        have hmbs : (manacherCenters (canonicalize s)).2 = 0 := by omega
        have := manacherLPS_normal (canonicalize s) (alnumIndices s) s
          (by omega)
        rw [hmbl, hmbs, him] at this
        simp only [runManacher, preprocessString]
        rw [him, this, mapSpanBack_range_full s n hn, hstake]
    exact ⟨hnaive, hdp, hman⟩

theorem run_single_char (s : List Char)
    (h1 : (canonicalize s).length = 1) :
    runNaive s = [s.getD ((alnumIndices s).getD 0 0) (Char.ofNat 32)] ∧
      runDp s = [s.getD ((alnumIndices s).getD 0 0) (Char.ofNat 32)] ∧
      runManacher s = [s.getD ((alnumIndices s).getD 0 0) (Char.ofNat 32)] := by
  have hone : 1 ≤ (canonicalize s).length := by omega
  have hidx : (alnumIndices s).getD 0 0 < s.length := by
    have := alnumIndices_spec s 0 (by rw [alnumIndices_length]; omega)
    exact this.1
  have hmap := mapSpanBack_one s (alnumIndices s) hidx
  obtain ⟨hn1, hn2, _⟩ := naiveCenters_facts (canonicalize s) hone
  have hnbl : (naiveCenters (canonicalize s)).1 = 1 := by omega
  have hnbs : (naiveCenters (canonicalize s)).2 = 0 := by omega
  have hnaive := naiveLPS_normal (canonicalize s) (alnumIndices s) s hone
  rw [hnbl, hnbs] at hnaive
  have hdp := dpLPS_one (canonicalize s) (alnumIndices s) s h1
  have hman := manacherLPS_one (canonicalize s) (alnumIndices s) s h1
  refine ⟨?_, ?_, ?_⟩
  · simp only [runNaive, preprocessString]
    rw [hnaive, hmap]
  · simp only [runDp, preprocessString]
    rw [hdp, hmap]
  · simp only [runManacher, preprocessString]
    rw [hman, hmap]

/-! ### Claim theorems -/

/-- Claim C1: for every raw input string, the substring returned by each of
the three LPS algorithms (naiveLPS, dpLPS, manacherLPS), when canonicalized
(non-alphanumeric characters removed and lower-cased), equals its own
reverse — every returned result is a true palindrome under the
canonicalization rule. -/
theorem claim_C1_results_are_palindromes (s : List Char) :
    (canonicalize (runNaive s)).reverse = canonicalize (runNaive s) ∧
      (canonicalize (runDp s)).reverse = canonicalize (runDp s) ∧
      (canonicalize (runManacher s)).reverse = canonicalize (runManacher s) := by
  rcases Nat.eq_zero_or_pos (canonicalize s).length with h0 | hn
  · have h0' : canonicalize s = [] := List.length_eq_zero.mp h0
    rw [runNaive_nil s h0', runDp_nil s h0', runManacher_nil s h0']
    exact ⟨rfl, rfl, rfl⟩
  · obtain ⟨ha1, ha2, ha3⟩ := naiveCenters_facts (canonicalize s) hn
    obtain ⟨hb1, hb2, hb3⟩ := dpCenters_facts (canonicalize s) hn
    obtain ⟨hc1, hc2, hc3⟩ := manacherCenters_facts (canonicalize s) hn
    refine ⟨?_, ?_, ?_⟩
    · rw [runNaive_canon s hn]
      exact palSlice_spanSlice_reverse _ _ _ ha2 ha3
    · rw [runDp_canon s hn]
      exact palSlice_spanSlice_reverse _ _ _ hb2 hb3
    · rw [runManacher_canon s hn]
      exact palSlice_spanSlice_reverse _ _ _ hc2 hc3

/-- Claim C2: for every raw input string, the three algorithms return
substrings whose canonicalized lengths are all equal, and that common length
is the length of the longest palindromic substring of the canonical string:
some palindromic span of the canonical string attains it, and every
palindromic span of the canonical string is bounded by it. -/
theorem claim_C2_equal_optimal_lengths (s : List Char) :
    (canonicalize (runNaive s)).length = (canonicalize (runDp s)).length ∧
    (canonicalize (runDp s)).length = (canonicalize (runManacher s)).length ∧
    (∃ a, a + (canonicalize (runNaive s)).length ≤ (canonicalize s).length ∧
      palSlice (canonicalize s) a (canonicalize (runNaive s)).length) ∧
    (∀ a len, a + len ≤ (canonicalize s).length →
      palSlice (canonicalize s) a len →
      len ≤ (canonicalize (runNaive s)).length) := by
  rcases Nat.eq_zero_or_pos (canonicalize s).length with h0 | hn
  · have h0' : canonicalize s = [] := List.length_eq_zero.mp h0
    rw [runNaive_nil s h0', runDp_nil s h0', runManacher_nil s h0']
    refine ⟨rfl, rfl, ⟨0, by simp [canonicalize, h0'], palSlice_zero _ 0⟩, ?_⟩
    intro a len hle hp
    have hlen0 : len = 0 := by omega
    rw [hlen0]
    exact Nat.zero_le _
  · have hagree := centers_agree (canonicalize s) hn
    rw [canonLen_naive s hn, canonLen_dp s hn, canonLen_manacher s hn]
    obtain ⟨h1, h2, h3⟩ := naiveCenters_facts (canonicalize s) hn
    exact ⟨hagree.1, hagree.2, ⟨(naiveCenters (canonicalize s)).2, h2, h3⟩,
      fun a len hle hp => naiveCenters_dominates (canonicalize s) a len hle hp⟩

theorem claim_C2_witness :
    (4 : Nat) ≤ (canonicalize (runNaive ("abba".toList))).length :=
  (claim_C2_equal_optimal_lengths ("abba".toList)).2.2.2 0 4 (by decide)
    (by decide)

/-- Claim C3: no input ever makes an algorithm's computed span fail the
PalindromeValidator check: for every triple (processedStr, indexMapping,
originalStr) the span each algorithm submits to `validatePalindrome` passes,
so the validation-failure branch (which would return a fabricated
single-character fallback) is unreachable, and each algorithm's returned
value is the validated span mapped back to the original string. -/
theorem claim_C3_validation_never_fails (p : List Char) (im : List Nat)
    (orig : List Char) :
    (1 ≤ p.length →
      validatePalindrome (spanSlice p (naiveSpan p).2 (naiveSpan p).1) = true ∧
      naiveLPS p im orig =
        mapSpanBack orig im (naiveCenters p).2 (naiveCenters p).1) ∧
    (1 ≤ p.length →
      validatePalindrome
        (spanSlice p (dpCenters p).2 (dpCenters p).1) = true) ∧
    (2 ≤ p.length →
      dpLPS p im orig =
        mapSpanBack orig im (dpCenters p).2 (dpCenters p).1) ∧
    (1 ≤ p.length →
      validatePalindrome
        (spanSlice p (manacherCenters p).2 (manacherCenters p).1) = true) ∧
    (2 ≤ p.length →
      manacherLPS p im orig =
        mapSpanBack orig im (manacherCenters p).2 (manacherCenters p).1) :=
  ⟨fun hn => ⟨naive_validation_passes p hn, naiveLPS_normal p im orig hn⟩,
   fun hn => dp_validation_passes p hn,
   fun hn => dpLPS_normal p im orig hn,
   fun hn => manacher_validation_passes p hn,
   fun hn => manacherLPS_normal p im orig hn⟩

theorem claim_C3_witness :
    validatePalindrome
      (spanSlice ("ab".toList) (naiveSpan ("ab".toList)).2
        (naiveSpan ("ab".toList)).1) = true ∧
    validatePalindrome
      (spanSlice ("ab".toList) (dpCenters ("ab".toList)).2
        (dpCenters ("ab".toList)).1) = true ∧
    validatePalindrome
      (spanSlice ("ab".toList) (manacherCenters ("ab".toList)).2
        (manacherCenters ("ab".toList)).1) = true :=
  ⟨((claim_C3_validation_never_fails ("ab".toList) [0, 1] ("ab".toList)).1
      (by decide)).1,
   (claim_C3_validation_never_fails ("ab".toList) [0, 1] ("ab".toList)).2.1
      (by decide),
   (claim_C3_validation_never_fails ("ab".toList) [0, 1]
      ("ab".toList)).2.2.2.1 (by decide)⟩

/-- Claim C4, counterexample: the claim reads retention as "ASCII or Unicode
alphanumeric" (`specAlphanumeric`), but `preprocessString` keeps only the
ASCII class `[a-zA-Z0-9]`: the Latin-1 letter é (U+00E9, a Unicode
alphanumeric) is dropped, so position 0 of the one-character raw string "é"
is not in the index mapping even though the claimed retention rule says it
must be. -/
theorem claim_C4_counterexample :
    ¬ (∀ (s : List Char) (i : Nat), i < s.length →
        (i ∈ alnumIndices s ↔
          specAlphanumeric (s.getD i (Char.ofNat 32)) = true)) := by
  intro h
  have h0 : (0 : Nat) < ([Char.ofNat 233] : List Char).length := by decide
  have hmem := (h [Char.ofNat 233] 0 h0).mpr (by decide)
  exact absurd hmem (by decide)

/-- Claim C4, amended: `preprocessString` retains a character iff it is an
ASCII alphanumeric (`[a-zA-Z0-9]`; non-ASCII Unicode alphanumerics are
dropped), lower-cases each retained character, and produces an indexMapping
whose entry k is the raw offset of the kth retained character; the mapping is
strictly increasing and every entry points to an ASCII-alphanumeric character
of the raw string. -/
theorem claim_C4_amended (s : List Char) :
    (∀ i, i < s.length →
      (i ∈ alnumIndices s ↔ isAlnumChar (s.getD i (Char.ofNat 32)) = true)) ∧
    (alnumIndices s).length = (canonicalize s).length ∧
    (alnumIndices s).Pairwise (· < ·) ∧
    (∀ k, k < (alnumIndices s).length →
      (alnumIndices s).getD k 0 < s.length ∧
      isAlnumChar (s.getD ((alnumIndices s).getD k 0) (Char.ofNat 32)) = true ∧
      (canonicalize s).getD k (Char.ofNat 32) =
        jsToLower (s.getD ((alnumIndices s).getD k 0) (Char.ofNat 32))) ∧
    preprocessString s = (canonicalize s, alnumIndices s) :=
  ⟨alnumIndices_mem_iff s, alnumIndices_length s, alnumIndices_pairwise s,
   alnumIndices_spec s, rfl⟩

theorem claim_C4_witness :
    (0 ∈ alnumIndices ("a b".toList) ↔
      isAlnumChar (("a b".toList).getD 0 (Char.ofNat 32)) = true) ∧
    (alnumIndices ("a b".toList)).getD 1 0 < ("a b".toList).length :=
  ⟨(claim_C4_amended ("a b".toList)).1 0 (by decide),
   ((claim_C4_amended ("a b".toList)).2.2.2.1 1 (by decide)).1⟩

/-- Claim C5, counterexample: the claim says individual memory-delta samples
are never clamped to zero and the raw noisy values are reported as measured;
but line 479 records `Math.max(0, (finalMemory - baselineMemory) / 1024)`.
With baseline 2048 and final 1024 the raw delta is -1 KB while the recorded
sample is 0, so the recorded sample is not the raw delta. -/
theorem claim_C5_counterexample :
    ¬ (∀ baseline fm : ℚ,
        memSampleKB baseline fm = (fm - baseline) / 1024) := by
  intro h
  have h1 := h 2048 1024
  rw [memSampleKB] at h1
  rw [if_pos (by norm_num)] at h1
  norm_num at h1

/-- Claim C5, amended: each per-iteration memory sample is clamped at zero
(`Math.max(0, delta/1024)`), so recorded samples are never negative and a
negative raw delta records as 0; the unreliable-measurement flag
(`memoryMeasurementIssue`) is set exactly when the aggregated (trimmed-mean)
average of the clamped samples is non-positive. -/
theorem claim_C5_amended
    (f : List Char → List Nat → List Char → List Char) (p : List Char)
    (im : List Nat) (orig : List Char) (obs : List IterObs) (hp : p ≠ [])
    (hflags : ∀ o ∈ obs.take (iterationsForLength p.length),
      o.timedOutFlag = false) :
    ((measurePerformance f p im orig obs).res.memoryMeasurementIssue = true ↔
      average (trimOutliers (sortAsc
        ((obs.take (iterationsForLength p.length)).map
          (fun o => memSampleKB o.baselineMemory o.finalMemory)))) ≤ 0) ∧
    (∀ b fm : ℚ, 0 ≤ memSampleKB b fm) ∧
    (∀ b fm : ℚ, fm - b < 0 → memSampleKB b fm = 0) ∧
    (∀ b fm : ℚ, 0 ≤ fm - b → memSampleKB b fm = (fm - b) / 1024) := by
  refine ⟨?_, ?_, ?_, ?_⟩
  · rw [measurePerformance_no_timeout f p im orig obs hp hflags]
    exact decide_eq_true_iff
  · intro b fm
    rw [memSampleKB]
    split
    · exact le_refl 0
    · rename_i hnlt
      exact le_of_not_lt hnlt
  · intro b fm hneg
    rw [memSampleKB]
    rw [if_pos (div_neg_of_neg_of_pos hneg (by norm_num))]
  · intro b fm hpos
    rw [memSampleKB]
    rw [if_neg (not_lt.mpr (div_nonneg hpos (by norm_num)))]

theorem claim_C5_witness :
    ((measurePerformance naiveLPS ("a".toList) [0] ("a".toList)
        obsSample).res.memoryMeasurementIssue = true ↔
      average (trimOutliers (sortAsc
        ((obsSample.take (iterationsForLength ("a".toList).length)).map
          (fun o => memSampleKB o.baselineMemory o.finalMemory)))) ≤ 0) ∧
    memSampleKB 2048 1024 = 0 :=
  ⟨(claim_C5_amended naiveLPS ("a".toList) [0] ("a".toList) obsSample
      (by decide) (by decide)).1,
   (claim_C5_amended naiveLPS ("a".toList) [0] ("a".toList) obsSample
      (by decide) (by decide)).2.2.1 2048 1024 (by norm_num)⟩

/-- Claim C6, counterexample: on the input "aba", with the timeout firing
during the first timed iteration, `measurePerformance` flags `timedOut: true`
and the one iteration that did run produced the partial result "aba"; yet
the returned `result` is not that partial result (it is the fixed diagnostic
message), so a timed-out run does not carry the partial result already
produced, contrary to the claim. -/
theorem claim_C6_counterexample :
    (measurePerformance naiveLPS (canonicalize ("aba".toList))
      (alnumIndices ("aba".toList)) ("aba".toList) obsTimeout).res.timedOut
      = true ∧
    (measurePerformance naiveLPS (canonicalize ("aba".toList))
      (alnumIndices ("aba".toList)) ("aba".toList)
      obsTimeout).iterationResults = ["aba".toList] ∧
    (measurePerformance naiveLPS (canonicalize ("aba".toList))
      (alnumIndices ("aba".toList)) ("aba".toList) obsTimeout).res.result ≠
      "aba".toList := by
  refine ⟨by decide, by decide, by decide⟩

/-- Claim C6, amended: when the wall-clock timeout fires, the measurement
loop stops after the iteration during which it fired (no further iteration
is sampled), and `measurePerformance` returns — without throwing — a result
`{ result: fixed timeout message, executionTime: 120000, memoryUsage: 0,
timedOut: true }`, discarding the partial result; and in the sequential
comparison each algorithm's outcome depends only on its own observations, so
one algorithm's timeout never suppresses the other two's results. -/
theorem claim_C6_amended
    (f : List Char → List Nat → List Char → List Char) (p : List Char)
    (im : List Nat) (orig : List Char) (obs : List IterObs) (hp : p ≠ [])
    (hto : (collectSamples (obs.take (iterationsForLength p.length))).any
      (fun o => o.timedOutFlag) = true) :
    (measurePerformance f p im orig obs).res =
      ⟨timeoutMessage, MAX_EXECUTION_TIME, 0, true, false, 0, []⟩ ∧
    (∀ (l1 : List IterObs) (o : IterObs) (l2 : List IterObs),
      (∀ x ∈ l1, x.timedOutFlag = false) → o.timedOutFlag = true →
      collectSamples (l1 ++ o :: l2) = l1 ++ [o]) ∧
    (∀ (s : List Char) (oN oD oM oD' oM' : List IterObs),
      (runComparison s oN oD oM).naive = (runComparison s oN oD' oM').naive) ∧
    (∀ (s : List Char) (oN oD oM oN' oM' : List IterObs),
      (runComparison s oN oD oM).dp = (runComparison s oN' oD oM').dp) ∧
    (∀ (s : List Char) (oN oD oM oN' oD' : List IterObs),
      (runComparison s oN oD oM).manacher =
        (runComparison s oN' oD' oM).manacher) :=
  ⟨measurePerformance_timeout f p im orig obs hp hto,
   collectSamples_break,
   fun _ _ _ _ _ _ => rfl, fun _ _ _ _ _ _ => rfl, fun _ _ _ _ _ _ => rfl⟩

theorem claim_C6_witness :
    (measurePerformance naiveLPS (canonicalize ("aba".toList))
      (alnumIndices ("aba".toList)) ("aba".toList) obsTimeout).res =
      ⟨timeoutMessage, MAX_EXECUTION_TIME, 0, true, false, 0, []⟩ :=
  (claim_C6_amended naiveLPS (canonicalize ("aba".toList))
    (alnumIndices ("aba".toList)) ("aba".toList) obsTimeout (by decide)
    (by decide)).1

/-- Claim C7: a measurement run performs 2 untimed warmup invocations, then N
timed iterations with N set by canonical-length tiers (7 below 1,000 canonical
characters, 5 below 5,000, 3 below 20,000, 1 from 20,000 up, antitone in the
length); afterwards the time and memory series are each sorted, the lowest and
highest 20% (`length / 5` samples each) are discarded exactly when at least 5
samples were collected, and the reported figures are the average of the
remaining samples (rounded to two decimals by `toFixed(2)`). -/
theorem claim_C7_measurement_procedure
    (f : List Char → List Nat → List Char → List Char) (p : List Char)
    (im : List Nat) (orig : List Char) (obs : List IterObs) (hp : p ≠ [])
    (hflags : ∀ o ∈ obs.take (iterationsForLength p.length),
      o.timedOutFlag = false) :
    (measurePerformance f p im orig obs).warmupResults.length = 2 ∧
    (measurePerformance f p im orig obs).iterationResults.length =
      (obs.take (iterationsForLength p.length)).length ∧
    (p.length < 1000 → iterationsForLength p.length = 7) ∧
    (1000 ≤ p.length → p.length < 5000 → iterationsForLength p.length = 5) ∧
    (5000 ≤ p.length → p.length < 20000 → iterationsForLength p.length = 3) ∧
    (20000 ≤ p.length → iterationsForLength p.length = 1) ∧
    (∀ m m', m ≤ m' → iterationsForLength m' ≤ iterationsForLength m) ∧
    (measurePerformance f p im orig obs).res.executionTime =
      toFixed2 (average (trimOutliers (sortAsc
        ((obs.take (iterationsForLength p.length)).map
          (fun o => o.endTime - o.startTime))))) ∧
    (measurePerformance f p im orig obs).res.memoryUsage =
      toFixed2 (average (trimOutliers (sortAsc
        ((obs.take (iterationsForLength p.length)).map
          (fun o => memSampleKB o.baselineMemory o.finalMemory))))) ∧
    (measurePerformance f p im orig obs).res.allTimes =
      trimOutliers (sortAsc ((obs.take (iterationsForLength p.length)).map
        (fun o => o.endTime - o.startTime))) ∧
    (∀ l : List ℚ, (sortAsc l).Perm l ∧ (sortAsc l).Pairwise (· ≤ ·)) ∧
    (∀ l : List ℚ, 5 ≤ l.length →
      trimOutliers l = (l.take (l.length - l.length / 5)).drop (l.length / 5) ∧
      (trimOutliers l).length + 2 * (l.length / 5) = l.length) ∧
    (∀ l : List ℚ, l.length < 5 → trimOutliers l = l) := by
  rw [measurePerformance_no_timeout f p im orig obs hp hflags]
  refine ⟨rfl, by simp, ?_, ?_, ?_, ?_, iterationsForLength_antitone,
    rfl, rfl, rfl, fun l => ⟨sortAsc_perm l, sortAsc_sorted l⟩,
    fun l h => ⟨trimOutliers_large l h, trimOutliers_length l h⟩,
    trimOutliers_small⟩
  · intro h
    rw [iterationsForLength, if_pos h]
  · intro h1 h2
    rw [iterationsForLength, if_neg (by omega), if_pos h2]
  · intro h1 h2
    rw [iterationsForLength, if_neg (by omega), if_neg (by omega), if_pos h2]
  · intro h1
    rw [iterationsForLength, if_neg (by omega), if_neg (by omega),
      if_neg (by omega)]

theorem claim_C7_witness :
    (measurePerformance naiveLPS ("a".toList) [0] ("a".toList)
      obsSample).warmupResults.length = 2 ∧
    (measurePerformance naiveLPS ("a".toList) [0] ("a".toList)
      obsSample).res.executionTime =
      toFixed2 (average (trimOutliers (sortAsc
        ((obsSample.take (iterationsForLength ("a".toList).length)).map
          (fun o => o.endTime - o.startTime))))) :=
  ⟨(claim_C7_measurement_procedure naiveLPS ("a".toList) [0] ("a".toList)
      obsSample (by decide) (by decide)).1,
   (claim_C7_measurement_procedure naiveLPS ("a".toList) [0] ("a".toList)
      obsSample (by decide) (by decide)).2.2.2.2.2.2.2.1⟩

/-- Claim C8: the expand-around-center loop used by all three algorithms
updates the best span only when the new span is strictly longer (an
equal-length span never replaces the recorded one, so the earliest-found span
wins ties under the left-to-right scan); consequently "babad" yields the
length-3 palindrome "bab" (not "aba") and "cbbd" yields "bb" from every
algorithm. -/
theorem claim_C8_tie_break_and_examples :
    (∀ (s : List Char) (l r bl bs : Nat),
      (expandAroundCenter s l r bl bs).1 = bl →
      expandAroundCenter s l r bl bs = (bl, bs)) ∧
    runNaive ("babad".toList) = "bab".toList ∧
    runDp ("babad".toList) = "bab".toList ∧
    runManacher ("babad".toList) = "bab".toList ∧
    runNaive ("cbbd".toList) = "bb".toList ∧
    runDp ("cbbd".toList) = "bb".toList ∧
    runManacher ("cbbd".toList) = "bb".toList :=
  ⟨fun s => expandAroundCenter_tie s, by decide, by decide, by decide,
   by decide, by decide, by decide⟩

theorem claim_C8_witness :
    expandAroundCenter ("ab".toList) 0 1 5 2 = (5, 2) :=
  claim_C8_tie_break_and_examples.1 ("ab".toList) 0 1 5 2 (by decide)

/-- Claim C9: boundary behaviour: an input whose canonical string is empty
(including inputs with no alphanumeric characters) yields the empty string
from all three algorithms with no error; a single-character canonical input
yields exactly the raw character at the mapped index; an all-identical
alphanumeric-character input of length n yields the full input back from all
three algorithms. -/
theorem claim_C9_boundary_behaviour :
    (∀ s : List Char, canonicalize s = [] →
      runNaive s = [] ∧ runDp s = [] ∧ runManacher s = []) ∧
    (∀ s : List Char, (canonicalize s).length = 1 →
      runNaive s = [s.getD ((alnumIndices s).getD 0 0) (Char.ofNat 32)] ∧
      runDp s = [s.getD ((alnumIndices s).getD 0 0) (Char.ofNat 32)] ∧
      runManacher s = [s.getD ((alnumIndices s).getD 0 0) (Char.ofNat 32)]) ∧
    (∀ (n : Nat) (c : Char), isAlnumChar c = true →
      runNaive (List.replicate n c) = List.replicate n c ∧
      runDp (List.replicate n c) = List.replicate n c ∧
      runManacher (List.replicate n c) = List.replicate n c) :=
  ⟨fun s h => ⟨runNaive_nil s h, runDp_nil s h, runManacher_nil s h⟩,
   fun s h => run_single_char s h,
   fun n c hc => run_replicate n c hc⟩

theorem claim_C9_witness :
    (runNaive ("!?".toList) = [] ∧ runDp ("!?".toList) = [] ∧
      runManacher ("!?".toList) = []) ∧
    runDp ("A".toList) =
      [("A".toList).getD ((alnumIndices ("A".toList)).getD 0 0)
        (Char.ofNat 32)] ∧
    runManacher ("aaaa".toList) = List.replicate 4 (Char.ofNat 97) :=
  ⟨claim_C9_boundary_behaviour.1 ("!?".toList) (by decide),
   (claim_C9_boundary_behaviour.2.1 ("A".toList) (by decide)).2.1,
   by
    have h := (claim_C9_boundary_behaviour.2.2 4 (Char.ofNat 97)
      (by decide)).2.2
    have hrepl : List.replicate 4 (Char.ofNat 97) = "aaaa".toList := by decide
    rw [hrepl] at h
    rw [h, hrepl]⟩

/-- Claim C10: each algorithm is a pure function of (processedStr,
indexMapping, originalStr): in a measurement run every warmup invocation and
every timed iteration computes the same value, and when the run does not time
out the reported `result` — taken from the first timed iteration — equals
that common value, for each of the three algorithms. -/
theorem claim_C10_determinism (p : List Char) (im : List Nat)
    (orig : List Char) (obs : List IterObs) (hobs : obs ≠ []) :
    ((∀ r ∈ (measurePerformance naiveLPS p im orig obs).warmupResults,
        r = naiveLPS p im orig) ∧
      (∀ r ∈ (measurePerformance naiveLPS p im orig obs).iterationResults,
        r = naiveLPS p im orig) ∧
      ((measurePerformance naiveLPS p im orig obs).res.timedOut = false →
        (measurePerformance naiveLPS p im orig obs).res.result =
          naiveLPS p im orig)) ∧
    ((∀ r ∈ (measurePerformance dpLPS p im orig obs).warmupResults,
        r = dpLPS p im orig) ∧
      (∀ r ∈ (measurePerformance dpLPS p im orig obs).iterationResults,
        r = dpLPS p im orig) ∧
      ((measurePerformance dpLPS p im orig obs).res.timedOut = false →
        (measurePerformance dpLPS p im orig obs).res.result =
          dpLPS p im orig)) ∧
    ((∀ r ∈ (measurePerformance manacherLPS p im orig obs).warmupResults,
        r = manacherLPS p im orig) ∧
      (∀ r ∈ (measurePerformance manacherLPS p im orig obs).iterationResults,
        r = manacherLPS p im orig) ∧
      ((measurePerformance manacherLPS p im orig obs).res.timedOut = false →
        (measurePerformance manacherLPS p im orig obs).res.result =
          manacherLPS p im orig)) := by
  obtain ⟨hw1, hi1⟩ := measurePerformance_invocations naiveLPS p im orig obs
  obtain ⟨hw2, hi2⟩ := measurePerformance_invocations dpLPS p im orig obs
  obtain ⟨hw3, hi3⟩ := measurePerformance_invocations manacherLPS p im orig obs
  exact ⟨⟨hw1, hi1, fun hnt =>
      measurePerformance_result_of_not_timedOut naiveLPS p im orig obs hobs
        hnt (naiveLPS_empty im orig)⟩,
    ⟨hw2, hi2, fun hnt =>
      measurePerformance_result_of_not_timedOut dpLPS p im orig obs hobs
        hnt (dpLPS_empty im orig)⟩,
    ⟨hw3, hi3, fun hnt =>
      measurePerformance_result_of_not_timedOut manacherLPS p im orig obs hobs
        hnt (manacherLPS_empty im orig)⟩⟩

theorem claim_C10_witness :
    (measurePerformance naiveLPS ("aba".toList) [0, 1, 2] ("aba".toList)
      obsSample).res.result = naiveLPS ("aba".toList) [0, 1, 2]
        ("aba".toList) :=
  (claim_C10_determinism ("aba".toList) [0, 1, 2] ("aba".toList) obsSample
    (by decide)).1.2.2 (by decide)
